import Mathlib

set_option maxRecDepth 8000

/-!
Shallow embedding of `src/model.c` (adjacency model construction and the
randomized backtracking sentence search).

Modelling conventions, kept close to the C source:
* C strings are `List Char`; the fixed-capacity arrays (`words`,
  `sentence_starting_words`, `next_words`, `tested`) are Lean lists, with the
  capacity limits recovered as theorems about list lengths.
* `Word*` pointers into the model's `words` array are list indices (`Nat`).
* The `tested` scratch array that `model.c` stores inside each `Word` struct is
  kept inside the embedded `Word` structure as well, because the search mutates
  it through the shared model: the search functions pass the word list as
  explicit state and return the updated list.
* The stream of `rand()` values is an explicit `List Nat` argument (exhausted
  stream reads as `0`).  The C idiom `while (not_all_checked ...) { i =
  random_int(...); if (!tested[i]) ... }` repeatedly rejects already-tested
  indices until it draws an untested one; it is embedded as drawing one stream
  value and using it (mod the number of untested indices) to select among the
  currently untested indices, which yields exactly the same set of reachable
  terminating behaviours.  Each marking loop additionally carries the number of
  loop iterations it may still perform (`fuel`, initialised to the array size
  exactly as the marked-set size bounds the C loop's marking iterations);
  `none` marks fuel exhaustion and is proved unreachable.
-/

/-- ASCII lowercasing, mirroring C `tolower` on the scanner's character set. -/
def c_tolower (c : Char) : Char :=
  if 'A' ≤ c ∧ c ≤ 'Z' then Char.ofNat (c.toNat + 32) else c

/-- ASCII uppercasing, mirroring C `toupper` on the scanner's character set. -/
def c_toupper (c : Char) : Char :=
  if 'a' ≤ c ∧ c ≤ 'z' then Char.ofNat (c.toNat - 32) else c

/-- Is `c` an ASCII uppercase letter. -/
def isUpperAscii (c : Char) : Bool := decide ('A' ≤ c ∧ c ≤ 'Z')

/-- Is `c` an ASCII letter. -/
def isAsciiLetter (c : Char) : Bool :=
  decide (('A' ≤ c ∧ c ≤ 'Z') ∨ ('a' ≤ c ∧ c ≤ 'z'))

/-- Embeds C `struct Word` (model.c:61).  `string` is the word text,
`next_words` the successor references (indices into the model's word array),
and `tested` the scratch marker array that the C code stores inside the
struct and mutates during the recursive search. -/
structure Word where
  string : List Char
  n_occurrences : Nat
  is_sentence_ender : Bool
  next_words : List Nat
  tested : List Bool
  deriving Repr, DecidableEq, Inhabited

/-- Embeds C `struct ModelImplementation` (model.c:75).  The unused
`sentences` bookkeeping fields (never read by the model/search code) are
omitted. -/
structure Model where
  words : List Word
  sentence_starting_words : List Nat
  deriving Repr, DecidableEq, Inhabited

/-- The four `Word` fields that make up the spec-level WordEntry (everything
except the `tested` scratch array). -/
def wordCore (w : Word) : List Char × Nat × Bool × List Nat :=
  (w.string, w.n_occurrences, w.is_sentence_ender, w.next_words)

/-- Two word arrays agree on every spec-level WordEntry field. -/
def sameCore (ws ws' : List Word) : Prop := ws.map wordCore = ws'.map wordCore

/-- Sentence-terminating characters recognised by `check_if_ends_sentence`
(model.c:174). -/
def isTerminator (c : Char) : Bool := c == '.' || c == '?' || c == '!' || c == ';'

/-- Embeds `check_if_ends_sentence` (model.c:172): if the final character is a
terminator, strip it and report true.  (The C code reads one byte before the
buffer when the token is empty; the scanner never produces empty tokens, and
the embedding returns the token unchanged in that case.) -/
def check_if_ends_sentence (t : List Char) : Bool × List Char :=
  match t.getLast? with
  | some c => if isTerminator c then (true, t.dropLast) else (false, t)
  | none => (false, t)

/-- Lowercase the first character of a token, as `add_next_word_to_model` does
at sentence starts (model.c:189). -/
def lowerFirst : List Char → List Char
  | [] => []
  | c :: rest => c_tolower c :: rest

/-- Embeds `search_words` (model.c:204): index of the first word whose string
matches the buffer (linear scan, as in the C loop). -/
def search_words (words : List Word) (buf : List Char) : Option Nat :=
  match words with
  | [] => none
  | w :: rest =>
    if w.string == buf then some 0
    else (search_words rest buf).map (fun i => i + 1)

/-- Embeds `create_word` (model.c:217): append a fresh entry and return its
index.  (The C code leaves the `tested` array uninitialised; it is zeroed
before every use by `find_words_recursive`, so `[]` is an equivalent start.) -/
def create_word (words : List Word) (buf : List Char) (ends : Bool) : List Word × Nat :=
  (words ++ [{ string := buf, n_occurrences := 1, is_sentence_ender := ends,
               next_words := [], tested := [] }], words.length)

/-- Replace entry `i` by `f` applied to it (no-op when out of range, like a C
write through an in-bounds pointer never is; all uses are in bounds). -/
def updateWord (ws : List Word) (i : Nat) (f : Word → Word) : List Word :=
  ws.set i (f (ws.getD i default))

/-- Embeds `add_next_word_to_model` (model.c:188): lowercase at sentence
starts, then match-and-update or create. -/
def add_next_word_to_model (words : List Word) (buf : List Char) (ends ns : Bool) :
    List Word × Nat :=
  let buf2 := if ns then lowerFirst buf else buf
  match search_words words buf2 with
  | some i =>
    (updateWord words i (fun w =>
      { w with is_sentence_ender := w.is_sentence_ender || ends,
               n_occurrences := w.n_occurrences + 1 }), i)
  | none => create_word words buf2 ends

/-- Embeds `link_words` (model.c:230): append `idx` to `p`'s successor list. -/
def link_words (words : List Word) (p idx : Nat) : List Word :=
  updateWord words p (fun w => { w with next_words := w.next_words ++ [idx] })

/-- The loop state of `create_model` (model.c:112): the model under
construction plus the rolling previous-word pointer and the
sentence-boundary flag. -/
structure BuildState where
  words : List Word
  ssw : List Nat
  thisWord : Option Nat
  newSentence : Bool
  deriving Repr, DecidableEq, Inhabited

/-- Initial `create_model` loop state (empty model, `new_sentence = true`). -/
def initBuildState : BuildState :=
  { words := [], ssw := [], thisWord := none, newSentence := true }

/-- One iteration of the `create_model` loop body (model.c:120): classify the
token, add it to the model, record it as a sentence starter or link it to the
previous word, and update the sentence-boundary flag. -/
def processToken (st : BuildState) (tok : List Char) : BuildState :=
  let ends := (check_if_ends_sentence tok).1
  let stripped := (check_if_ends_sentence tok).2
  let res := add_next_word_to_model st.words stripped ends st.newSentence
  let words1 := res.1
  let idx := res.2
  let words2 :=
    if st.newSentence then words1
    else
      match st.thisWord with
      | some p => link_words words1 p idx
      | none => words1
  let ssw1 := if st.newSentence then st.ssw ++ [idx] else st.ssw
  let words3 :=
    if ends then updateWord words2 idx (fun w => { w with is_sentence_ender := true })
    else words2
  { words := words3, ssw := ssw1, thisWord := some idx, newSentence := ends }

/-- The `create_model` loop run over a whole token stream. -/
def buildState (ts : List (List Char)) : BuildState :=
  ts.foldl processToken initBuildState

/-- Embeds `create_model` (model.c:112) at the token-stream boundary (the
`fscanf` scanner is the excluded tokenizer).  `none` embeds the
`"no words found"` fatal exit (EmptyCorpusError). -/
def create_model (ts : List (List Char)) : Option Model :=
  let st := buildState ts
  if st.words = [] then none
  else some { words := st.words, sentence_starting_words := st.ssw }

/-- Embeds `not_all_checked` (model.c:329): true when some entry is still
false. -/
def not_all_checked (arr : List Bool) : Bool := arr.any (fun b => !b)

/-- Embeds `random_int` (model.c:364) for the in-contract case
`lower ≤ upper`: `rand() % range + lower` with `range = upper - lower + 1`
(the source asserts the result stays within the bounds). -/
def random_int (lower upper r : Nat) : Nat := r % (upper - lower + 1) + lower

/-- The indices of the still-untested entries of a marker array (the indices
the C rejection loop can still draw and accept). -/
def untriedIdx (tested : List Bool) : List Nat :=
  (List.range tested.length).filter (fun j => tested.getD j true == false)

/-- Result of one search call: the returned boolean, the word array (whose
`tested` scratch fields the search mutates through the shared model), the
remaining random stream and the sentence (word indices) built so far. -/
abbrev SearchRes := Bool × List Word × List Nat × List Nat

/-- The marking loop of `find_words_recursive` (model.c:313): while some
successor index is untested, draw a random untested index, mark it, append the
successor and recurse via `recurse` (the search at the next position); first
success wins, otherwise keep trying.  `fuel` bounds the number of iterations
(the C loop marks one index per effective iteration, so the successor count is
enough); `none` flags fuel exhaustion with untested indices left, proved
unreachable. -/
def tryNext (recurse : List Word → List Nat → Nat → List Nat → Option SearchRes) :
    Nat → List Word → List Nat → Nat → List Nat → Option SearchRes
  | fuel, ws, s, cur, acc =>
    let u := untriedIdx (ws.getD cur default).tested
    if u.isEmpty then some (false, ws, s, acc)
    else
      match fuel with
      | 0 => none
      | f + 1 =>
        let nwIdx := u.getD (s.headD 0 % u.length) 0
        let ws2 := updateWord ws cur (fun w0 => { w0 with tested := w0.tested.set nwIdx true })
        let nxt := (ws.getD cur default).next_words.getD nwIdx 0
        match recurse ws2 s.tail nxt (acc ++ [nxt]) with
        | none => none
        | some (true, ws3, s3, acc3) => some (true, ws3, s3, acc3)
        | some (false, ws3, s3, _) => tryNext recurse f ws3 s3 cur acc

/-- Embeds `find_words_recursive` (model.c:306), indexed by the number of
positions still to fill (`rem = length - cur_index`): at the last position the
search succeeds iff the current word ends sentences; otherwise it zeroes the
current word's `tested` array *in the shared word list* (exactly as the C code
zeroes the array stored in the `Word` struct) and runs the marking loop.
`cur` is the word index at the current position and `acc` the sentence built
so far (whose last element is `cur`).  `rem = 0` (a request of length `0`,
for which the C recursion never reaches its base case) is mapped to `none`. -/
def find_words_recursive : Nat → List Word → List Nat → Nat → List Nat → Option SearchRes
  | 0 => fun _ _ _ _ => none
  | 1 => fun ws s cur acc => some ((ws.getD cur default).is_sentence_ender, ws, s, acc)
  | r + 2 => fun ws s cur acc =>
    let w := ws.getD cur default
    let ws1 := updateWord ws cur
      (fun w0 => { w0 with tested := List.replicate w0.next_words.length false })
    tryNext (find_words_recursive (r + 1)) w.next_words.length ws1 s cur acc

/-- The starter loop of `find_words` (model.c:283): while some index into
`sentence_starting_words` is unchecked, draw a random unchecked index, mark it
(in the request-local `checked` array), seed the sentence with that starter
and run the recursive search; first success wins. -/
def find_start_loop : Nat → List Bool → List Word → List Nat → Nat → List Nat → Option SearchRes
  | fuel, checked, ws, s, len, ssw =>
    let u := untriedIdx checked
    if u.isEmpty then some (false, ws, s, [])
    else
      match fuel with
      | 0 => none
      | f + 1 =>
        let idx := u.getD (s.headD 0 % u.length) 0
        let checked2 := checked.set idx true
        let start := ssw.getD idx 0
        match find_words_recursive len ws s.tail start [start] with
        | none => none
        | some (true, ws3, s3, acc3) => some (true, ws3, s3, acc3)
        | some (false, ws3, s3, _) => find_start_loop f checked2 ws3 s3 len ssw

/-- Embeds `find_words` (model.c:280): run the starter loop with a fresh
(request-local) `ssw_checked` array. -/
def find_words (m : Model) (len : Nat) (s : List Nat) : Option SearchRes :=
  find_start_loop m.sentence_starting_words.length
    (List.replicate m.sentence_starting_words.length false) m.words s len
    m.sentence_starting_words

/-- The string-building loop of `combine_words` (model.c:345): each text is
followed by a space, except the last, which is followed by a period. -/
def join_texts : List (List Char) → List Char
  | [] => []
  | [t] => t ++ ['.']
  | t :: t2 :: rest => t ++ [' '] ++ join_texts (t2 :: rest)

/-- The final `toupper` on the first character (model.c:356). -/
def capitalize_first : List Char → List Char
  | [] => []
  | c :: rest => c_toupper c :: rest

/-- Embeds `combine_words` (model.c:343). -/
def combine_words (sentence : List Word) : List Char :=
  capitalize_first (join_texts (sentence.map (fun w => w.string)))

/-- Embeds `generate_sentence` (model.c:265): `some none` is the C `NULL`
return ("no sentence of this length"), `some (some str)` a found sentence,
and the outer `none` the unreachable fuel exhaustion. -/
def generate_sentence (m : Model) (len : Nat) (s : List Nat) :
    Option (Option (List Char)) :=
  match find_words m len s with
  | none => none
  | some (true, ws3, _, acc) =>
    some (some (combine_words (acc.map (fun i => ws3.getD i default))))
  | some (false, _, _, _) => some none

/-- Does word `b` occur in word `a`'s successor list. -/
def linkedIn (ws : List Word) (a b : Nat) : Bool := (ws.getD a default).next_words.contains b

/-- Every consecutive pair of the list is related by an observed successor
link. -/
def chain_linked (ws : List Word) : List Nat → Bool
  | [] => true
  | [_] => true
  | a :: b :: rest => linkedIn ws a b && chain_linked ws (b :: rest)

/-- A valid chain: nonempty, the first word occurs in
`sentence_starting_words`, consecutive words are linked, and the last word is
a sentence ender. -/
def isValidChain (m : Model) (c : List Nat) : Bool :=
  match c with
  | [] => false
  | h :: _ =>
    m.sentence_starting_words.contains h && chain_linked m.words c &&
      (m.words.getD (c.getLastD 0) default).is_sentence_ender

/-- Number of still-untested successor indices of word `j` in state `ws`. -/
def fc (ws : List Word) (j : Nat) : Nat := (untriedIdx (ws.getD j default).tested).length

/-- The `tested` array of each word either kept its length or was re-zeroed to
the length of that word's successor list (the only two things the search ever
does to it). -/
def testedLenOk (ws ws' : List Word) : Prop :=
  ∀ j, (ws'.getD j default).tested.length = (ws.getD j default).tested.length ∨
       (ws'.getD j default).tested.length = (ws.getD j default).next_words.length

/-- Relation between the word-array state before and after any search step:
all spec-level fields are preserved and only well-shaped `tested` updates
happened. -/
def searchStep (ws ws' : List Word) : Prop := sameCore ws ws' ∧ testedLenOk ws ws'

/-- A successful extension: the final sentence extends the accumulator by
`ext`, the path `cur :: ext` has length `r`, is linked step by step, and ends
at a sentence-ending word. -/
def chainExt (ws : List Word) (cur : Nat) (r : Nat) (acc accR : List Nat) : Prop :=
  ∃ ext, accR = acc ++ ext ∧ ext.length + 1 = r ∧
    chain_linked ws (cur :: ext) = true ∧
    (ws.getD ((cur :: ext).getLastD 0) default).is_sentence_ender = true

/-- Behavioural specification of the recursive search at depth budget `r`:
any returned state is a `searchStep` away, failure never grows any untested
count, and success returns a valid extension of length `r`. -/
def FwrSpec (F : List Word → List Nat → Nat → List Nat → Option SearchRes) (r : Nat) : Prop :=
  ∀ ws s cur acc res, F ws s cur acc = some res →
    searchStep ws res.2.1 ∧
    (res.1 = false → ∀ j, fc res.2.1 j ≤ fc ws j) ∧
    (res.1 = true → chainExt ws cur r acc res.2.2.2)

/-- Totality (fuel adequacy) of a search function. -/
def FwrTotal (F : List Word → List Nat → Nat → List Nat → Option SearchRes) : Prop :=
  ∀ ws s cur acc, (F ws s cur acc).isSome = true

/-- Whitespace characters for token counting in formatted output. -/
def isWhitespaceChar (c : Char) : Bool := c == ' ' || c == '\t' || c == '\n' || c == '\x0d'

/-- Counts maximal nonempty runs of non-whitespace characters; the boolean
records whether the previous character belonged to a run. -/
def countTokensAux : Bool → List Char → Nat
  | _, [] => 0
  | prevIn, c :: rest =>
    if isWhitespaceChar c then countTokensAux false rest
    else (if prevIn then 0 else 1) + countTokensAux true rest

/-- Number of whitespace-separated tokens of a string. -/
def countTokens (s : List Char) : Nat := countTokensAux false s

/-- First character exists and is an ASCII uppercase letter. -/
def firstCharUpper (s : List Char) : Bool :=
  match s with
  | [] => false
  | c :: _ => isUpperAscii c

/-- The string ends with a period and that period is not preceded by another
period ("ends with exactly one period"). -/
def endsSinglePeriod (s : List Char) : Bool :=
  s.getLastD ' ' == '.' && !(s.dropLast.getLastD ' ' == '.')

/-- Replay of the builder's per-token normalization over a token stream
(starting with sentence flag `ns`), recording for each token whether it stood
at a sentence start and its normalized (stripped, possibly lowercased) text.
This is the corpus-level view of model.c:120-135 used to state capacity
preconditions. -/
def normTexts : List (List Char) → Bool → List (Bool × List Char)
  | [], _ => []
  | t :: rest, ns =>
    (ns, if ns then lowerFirst (check_if_ends_sentence t).2 else (check_if_ends_sentence t).2)
      :: normTexts rest (check_if_ends_sentence t).1

/-- The normalized texts of a corpus, in token order. -/
def corpusTexts (ts : List (List Char)) : List (List Char) :=
  (normTexts ts true).map (fun e => e.2)

/-- Number of sentence-start token occurrences in a corpus. -/
def startCount (ts : List (List Char)) : Nat :=
  (normTexts ts true).countP (fun e => e.1)

/-- The observed transitions of a normalized token sequence, given the text of
the word preceding the sequence (if it did not end a sentence): one pair per
token that does not start a sentence. -/
def adjPairsFrom : Option (List Char) → List (Bool × List Char) → List (List Char × List Char)
  | _, [] => []
  | pv, e :: rest =>
    (if e.1 then []
     else
       match pv with
       | some p => [(p, e.2)]
       | none => []) ++ adjPairsFrom (some e.2) rest

/-- All observed transitions of a corpus. -/
def corpusTransitions (ts : List (List Char)) : List (List Char × List Char) :=
  adjPairsFrom none (normTexts ts true)

/-- Number of observed transitions out of the word with text `t`. -/
def transFrom (ts : List (List Char)) (t : List Char) : Nat :=
  (corpusTransitions ts).countP (fun p => p.1 == t)

/-- The texts of a word array, in index order. -/
def wordStrings (ws : List Word) : List (List Char) := ws.map (fun w => w.string)

/-- Successor-list length of the (first) entry with text `t`, `0` if absent
(lookup by the builder's own `search_words`). -/
def nwOf (ws : List Word) (t : List Char) : Nat :=
  match search_words ws t with
  | some i => (ws.getD i default).next_words.length
  | none => 0

/-- The sentence-boundary flag after scanning a token list, starting from
flag `ns` (the corpus-side mirror of the builder's `new_sentence`). -/
def scanFlag : List (List Char) → Bool → Bool
  | [], ns => ns
  | t :: rest, _ => scanFlag rest (check_if_ends_sentence t).1

/-- The previous-word text after a token list, starting from `pv` (the
corpus-side mirror of the builder's `this_word`). -/
def pvAfter (pv : Option (List Char)) (l : List (Bool × List Char)) : Option (List Char) :=
  match l.getLast? with
  | some e => some e.2
  | none => pv

/-- Demo corpus `"a b a c d e."`: `a` starts the only sentence, can be followed
by `b` or `c`, `b` leads back to `a`, and only `e` ends a sentence; the unique
valid 4-chain is a-c-d-e. -/
def demoTokens : List (List Char) := [['a'], ['b'], ['a'], ['c'], ['d'], ['e', '.']]

/-- The model built from `demoTokens`. -/
def demoModel : Model := (create_model demoTokens).getD default

/-- Demo corpus `"a a a b."` whose adjacency graph has a self-loop on `a`. -/
def cyclicTokens : List (List Char) := [['a'], ['a'], ['a'], ['b', '.']]

/-- The model built from `cyclicTokens`. -/
def cyclicModel : Model := (create_model cyclicTokens).getD default

/-- A vocabulary entry whose text starts with a non-letter scanner character
(produced, e.g., by the corpus token `,a.`). -/
def puncWord : Word :=
  { string := [',', 'a'], n_occurrences := 1, is_sentence_ender := true,
    next_words := [], tested := [] }

/-- A well-formed vocabulary entry for the formatter witness. -/
def hiWord : Word :=
  { string := ['h', 'i'], n_occurrences := 1, is_sentence_ender := true,
    next_words := [], tested := [] }

/-- The model built from the corpus `"a ."` whose second token is a lone
period. -/
def dotModel : Model := (create_model [['a'], ['.']]).getD default

/-- Total occurrence count over the vocabulary. -/
def occSum (ws : List Word) : Nat := (ws.map (fun w => w.n_occurrences)).sum

/-- The vocabulary has an entry with empty text marked as sentence-ending. -/
def hasEmptyEnder (ws : List Word) : Prop :=
  ∃ j, j < ws.length ∧ (ws.getD j default).string = [] ∧
    (ws.getD j default).is_sentence_ender = true

/-! ### Basic lemmas about list primitives and the scratch arrays -/

theorem getD_set_self {α : Type} (l : List α) (i : Nat) (a d : α) (h : i < l.length) :
    (l.set i a).getD i d = a := by
  simp [List.getD_eq_getElem?_getD, List.getElem?_set_self', h]

theorem getD_set_ne {α : Type} (l : List α) {i j : Nat} (a d : α) (h : i ≠ j) :
    (l.set i a).getD j d = l.getD j d := by
  simp [List.getD_eq_getElem?_getD, List.getElem?_set_ne h]

theorem getD_map {α β : Type} (f : α → β) (l : List α) (i : Nat) (d : α) :
    (l.map f).getD i (f d) = f (l.getD i d) := by
  by_cases h : i < l.length
  · rw [List.getD_eq_getElem l d h, List.getD_eq_getElem _ _ (by simpa using h)]
    simp
  · rw [List.getD_eq_default _ _ (by rw [List.length_map]; omega),
      List.getD_eq_default _ _ (by omega)]

theorem set_getD_self {α : Type} (l : List α) (i : Nat) (d : α) :
    l.set i (l.getD i d) = l := by
  induction l generalizing i with
  | nil => rfl
  | cons a t ih =>
    cases i with
    | zero => rfl
    | succ k => simpa [List.set, List.getD] using ih k

theorem getD_mem {α : Type} {l : List α} {i : Nat} (d : α) (h : i < l.length) :
    l.getD i d ∈ l := by
  rw [List.getD_eq_getElem l d h]
  exact List.getElem_mem _

theorem mem_untriedIdx {tested : List Bool} {j : Nat} :
    j ∈ untriedIdx tested ↔ j < tested.length ∧ tested.getD j true = false := by
  simp [untriedIdx, List.mem_filter, List.mem_range]

theorem untriedIdx_nodup (tested : List Bool) : (untriedIdx tested).Nodup :=
  (List.nodup_range _).filter _

theorem untriedIdx_replicate_false (n : Nat) :
    untriedIdx (List.replicate n false) = List.range n := by
  unfold untriedIdx
  rw [List.length_replicate]
  apply List.filter_eq_self.mpr
  intro j hj
  rw [List.mem_range] at hj
  rw [List.getD_eq_getElem _ _ (by simpa using hj)]
  simp

theorem untriedIdx_set_true (tested : List Bool) (i : Nat) :
    untriedIdx (tested.set i true) = (untriedIdx tested).filter (fun j => j != i) := by
  unfold untriedIdx
  rw [List.length_set, List.filter_filter]
  apply List.filter_congr
  intro j hj
  rw [List.mem_range] at hj
  by_cases hji : j = i
  · subst hji
    by_cases hi : j < tested.length
    · have h1 := getD_set_self tested j true true hi
      rw [List.getD_eq_getElem?_getD] at h1
      simp [h1]
    · rw [List.set_eq_of_length_le (by omega)]
      rw [List.getD_eq_default _ _ (by omega)]
      simp
  · rw [getD_set_ne _ _ _ (fun h => hji h.symm)]
    simp [hji]

theorem length_untriedIdx_set_true {tested : List Bool} {i : Nat}
    (h : i ∈ untriedIdx tested) :
    (untriedIdx (tested.set i true)).length + 1 = (untriedIdx tested).length := by
  rw [untriedIdx_set_true]
  rw [← (untriedIdx_nodup tested).erase_eq_filter i]
  rw [List.length_erase_of_mem h]
  have hpos : 0 < (untriedIdx tested).length := List.length_pos_of_mem h
  omega

theorem untriedIdx_length_le (tested : List Bool) :
    (untriedIdx tested).length ≤ tested.length := by
  calc (untriedIdx tested).length ≤ (List.range tested.length).length :=
        List.length_filter_le _ _
    _ = tested.length := List.length_range _

/-! ### Lemmas about `updateWord` and `sameCore` -/

theorem length_updateWord (ws : List Word) (i : Nat) (f : Word → Word) :
    (updateWord ws i f).length = ws.length := List.length_set ..

theorem getD_updateWord_self {ws : List Word} {i : Nat} (f : Word → Word) (h : i < ws.length) :
    (updateWord ws i f).getD i default = f (ws.getD i default) :=
  getD_set_self _ _ _ _ h

theorem getD_updateWord_ne (ws : List Word) {i j : Nat} (f : Word → Word) (h : i ≠ j) :
    (updateWord ws i f).getD j default = ws.getD j default :=
  getD_set_ne _ _ _ h

theorem updateWord_out_of_range {ws : List Word} {i : Nat} (f : Word → Word)
    (h : ws.length ≤ i) : updateWord ws i f = ws :=
  List.set_eq_of_length_le (by simpa using h)

theorem sameCore_refl (ws : List Word) : sameCore ws ws := rfl

theorem sameCore_trans {a b c : List Word} (h1 : sameCore a b) (h2 : sameCore b c) :
    sameCore a c := h1.trans h2

theorem sameCore_length {ws ws' : List Word} (h : sameCore ws ws') :
    ws.length = ws'.length := by
  have := congrArg List.length h
  simpa using this

theorem sameCore_getD {ws ws' : List Word} (h : sameCore ws ws') (j : Nat) :
    wordCore (ws.getD j default) = wordCore (ws'.getD j default) := by
  have h1 := getD_map wordCore ws j default
  have h2 := getD_map wordCore ws' j default
  rw [← h1, ← h2, h]

theorem sameCore_string {ws ws' : List Word} (h : sameCore ws ws') (j : Nat) :
    (ws.getD j default).string = (ws'.getD j default).string :=
  congrArg (fun p => p.1) (sameCore_getD h j)

theorem sameCore_next_words {ws ws' : List Word} (h : sameCore ws ws') (j : Nat) :
    (ws.getD j default).next_words = (ws'.getD j default).next_words :=
  congrArg (fun p => p.2.2.2) (sameCore_getD h j)

theorem sameCore_ender {ws ws' : List Word} (h : sameCore ws ws') (j : Nat) :
    (ws.getD j default).is_sentence_ender = (ws'.getD j default).is_sentence_ender :=
  congrArg (fun p => p.2.2.1) (sameCore_getD h j)

theorem sameCore_updateWord_tested (ws : List Word) (i : Nat) (g : Word → List Bool) :
    sameCore ws (updateWord ws i (fun w => { w with tested := g w })) := by
  unfold sameCore updateWord
  rw [List.map_set]
  have hc : wordCore { ws.getD i default with tested := g (ws.getD i default) } =
      wordCore (ws.getD i default) := rfl
  rw [hc]
  have hd : wordCore (ws.getD i default) = (ws.map wordCore).getD i (wordCore default) :=
    (getD_map wordCore ws i default).symm
  rw [hd, set_getD_self]

/-! ### Search-state step lemmas -/

theorem searchStep_refl (ws : List Word) : searchStep ws ws := ⟨rfl, fun _ => Or.inl rfl⟩

theorem searchStep_trans {a b c : List Word} (h1 : searchStep a b) (h2 : searchStep b c) :
    searchStep a c := by
  refine ⟨sameCore_trans h1.1 h2.1, fun j => ?_⟩
  rcases h2.2 j with h | h
  · rw [h]
    exact h1.2 j
  · right
    rw [h, sameCore_next_words h1.1 j]

theorem searchStep_zero (ws : List Word) (cur : Nat) :
    searchStep ws (updateWord ws cur
      (fun w0 => { w0 with tested := List.replicate w0.next_words.length false })) := by
  refine ⟨sameCore_updateWord_tested ws cur _, fun j => ?_⟩
  by_cases hj : cur = j
  · subst hj
    by_cases hc : cur < ws.length
    · right
      rw [getD_updateWord_self _ hc]
      simp
    · rw [updateWord_out_of_range _ (by omega)]
      exact Or.inl rfl
  · rw [getD_updateWord_ne _ _ hj]
    exact Or.inl rfl

theorem searchStep_mark (ws : List Word) (cur i : Nat) :
    searchStep ws (updateWord ws cur
      (fun w0 => { w0 with tested := w0.tested.set i true })) := by
  refine ⟨sameCore_updateWord_tested ws cur _, fun j => ?_⟩
  by_cases hj : cur = j
  · subst hj
    by_cases hc : cur < ws.length
    · left
      rw [getD_updateWord_self _ hc]
      simp
    · rw [updateWord_out_of_range _ (by omega)]
      exact Or.inl rfl
  · rw [getD_updateWord_ne _ _ hj]
    exact Or.inl rfl

theorem fc_updateWord_ne (ws : List Word) {cur j : Nat} (f : Word → Word) (h : cur ≠ j) :
    fc (updateWord ws cur f) j = fc ws j := by
  unfold fc
  rw [getD_updateWord_ne _ _ h]

theorem fc_mark_self {ws : List Word} {cur i : Nat}
    (hi : i ∈ untriedIdx (ws.getD cur default).tested) (hc : cur < ws.length) :
    fc (updateWord ws cur (fun w0 => { w0 with tested := w0.tested.set i true })) cur + 1 =
      fc ws cur := by
  unfold fc
  rw [getD_updateWord_self _ hc]
  exact length_untriedIdx_set_true hi

theorem lt_length_of_untried_ne_nil {ws : List Word} {cur : Nat}
    (h : untriedIdx (ws.getD cur default).tested ≠ []) : cur < ws.length := by
  by_contra hc
  rw [List.getD_eq_default _ _ (by omega)] at h
  exact h rfl

theorem chain_linked_congr {ws ws' : List Word} (h : sameCore ws ws') :
    ∀ l, chain_linked ws l = chain_linked ws' l
  | [] => rfl
  | [_] => rfl
  | a :: b :: rest => by
    rw [chain_linked, chain_linked, chain_linked_congr h (b :: rest)]
    unfold linkedIn
    rw [sameCore_next_words h a]

theorem chainExt_congr {ws ws' : List Word} (h : sameCore ws ws') {cur r : Nat}
    {acc accR : List Nat} :
    chainExt ws' cur r acc accR → chainExt ws cur r acc accR := by
  rintro ⟨ext, h1, h2, h3, h4⟩
  exact ⟨ext, h1, h2, by rw [chain_linked_congr h, h3], by rw [sameCore_ender h, h4]⟩

theorem testedLen_stable {ws ws' : List Word} (h : searchStep ws ws') {cur : Nat}
    (hT : (ws.getD cur default).tested.length = (ws.getD cur default).next_words.length) :
    (ws'.getD cur default).tested.length = (ws'.getD cur default).next_words.length := by
  rcases h.2 cur with h2 | h2
  · rw [h2, hT, sameCore_next_words h.1 cur]
  · rw [h2, sameCore_next_words h.1 cur]

theorem zero_tested_ht (ws : List Word) (cur : Nat) :
    ((updateWord ws cur (fun w0 =>
        { w0 with tested := List.replicate w0.next_words.length false })).getD cur
          default).tested.length =
      ((updateWord ws cur (fun w0 =>
        { w0 with tested := List.replicate w0.next_words.length false })).getD cur
          default).next_words.length := by
  by_cases hc : cur < ws.length
  · rw [getD_updateWord_self _ hc]
    simp
  · rw [updateWord_out_of_range _ (by omega)]
    rw [List.getD_eq_default _ _ (by omega)]
    rfl

theorem fc_zero_self {ws : List Word} {cur : Nat} (hc : cur < ws.length) :
    fc (updateWord ws cur (fun w0 =>
      { w0 with tested := List.replicate w0.next_words.length false })) cur =
      (ws.getD cur default).next_words.length := by
  unfold fc
  rw [getD_updateWord_self _ hc]
  rw [untriedIdx_replicate_false]
  exact List.length_range _

theorem getLastD_cons_cons {α : Type} (a b d : α) (l : List α) :
    (a :: b :: l).getLastD d = (b :: l).getLastD d := by
  simp [List.getLastD_eq_getLast?, List.getLast?_cons_cons]

theorem tryNext_spec (F : List Word → List Nat → Nat → List Nat → Option SearchRes) (r : Nat)
    (hF : FwrSpec F r) :
    ∀ (fuel : Nat) (ws : List Word) (s : List Nat) (cur : Nat) (acc : List Nat)
      (res : SearchRes),
      tryNext F fuel ws s cur acc = some res →
      searchStep ws res.2.1 ∧
      (res.1 = false → (∀ j, fc res.2.1 j ≤ fc ws j) ∧ fc res.2.1 cur = 0 ∧ res.2.2.2 = acc) ∧
      (res.1 = true →
        (ws.getD cur default).tested.length = (ws.getD cur default).next_words.length →
        chainExt ws cur (r + 1) acc res.2.2.2) := by
  intro fuel
  induction fuel with
  | zero =>
    intro ws s cur acc res hres
    simp only [tryNext] at hres
    split at hres
    case isTrue hu =>
      obtain rfl : (false, ws, s, acc) = res := Option.some.inj hres
      refine ⟨searchStep_refl ws, fun _ => ⟨fun j => le_refl _, ?_, rfl⟩, fun h => by simp at h⟩
      show fc ws cur = 0
      unfold fc
      rw [List.isEmpty_iff.mp hu]
      rfl
    case isFalse => simp at hres
  | succ f ih =>
    intro ws s cur acc res hres
    simp only [tryNext] at hres
    split at hres
    case isTrue hu =>
      obtain rfl : (false, ws, s, acc) = res := Option.some.inj hres
      refine ⟨searchStep_refl ws, fun _ => ⟨fun j => le_refl _, ?_, rfl⟩, fun h => by simp at h⟩
      show fc ws cur = 0
      unfold fc
      rw [List.isEmpty_iff.mp hu]
      rfl
    case isFalse hu =>
      have hne : untriedIdx (ws.getD cur default).tested ≠ [] := fun h => hu (by rw [h]; rfl)
      have hlt : cur < ws.length := lt_length_of_untried_ne_nil hne
      set U := untriedIdx (ws.getD cur default).tested with hU
      have hupos : 0 < U.length := List.length_pos.mpr hne
      set nwIdx := U.getD (s.headD 0 % U.length) 0 with hnwIdx
      have hmem : nwIdx ∈ U := getD_mem 0 (Nat.mod_lt _ hupos)
      set ws2 := updateWord ws cur (fun w0 => { w0 with tested := w0.tested.set nwIdx true }) with hws2
      set nxt := (ws.getD cur default).next_words.getD nwIdx 0 with hnxt
      have hstep2 : searchStep ws ws2 := searchStep_mark ws cur nwIdx
      split at hres
      · simp at hres
      · next ws3 s3 acc3 heq =>
        obtain rfl : (true, ws3, s3, acc3) = res := Option.some.inj hres
        have hFs := hF _ _ _ _ _ heq
        have hstep : searchStep ws ws3 := searchStep_trans hstep2 hFs.1
        refine ⟨hstep, fun hfalse => by simp at hfalse, fun _ hT => ?_⟩
        obtain ⟨ext2, he1, he2, he3, he4⟩ := hFs.2.2 rfl
        have hnwlt : nwIdx < (ws.getD cur default).next_words.length := by
          rw [← hT]
          exact (mem_untriedIdx.mp hmem).1
        have hnxtmem : nxt ∈ (ws.getD cur default).next_words := getD_mem 0 hnwlt
        refine ⟨nxt :: ext2, ?_, ?_, ?_, ?_⟩
        · rw [he1]
          simp
        · simp only [List.length_cons]
          omega
        · rw [chain_linked, Bool.and_eq_true]
          refine ⟨List.elem_iff.mpr hnxtmem, ?_⟩
          rw [chain_linked_congr hstep2.1]
          exact he3
        · rw [getLastD_cons_cons]
          rw [sameCore_ender hstep2.1]
          exact he4
      · next ws3 s3 acc3 heq =>
        have hFs := hF _ _ _ _ _ heq
        have hstep13 : searchStep ws ws3 := searchStep_trans hstep2 hFs.1
        have hih := ih _ _ _ _ _ hres
        refine ⟨searchStep_trans hstep13 hih.1, fun hfalse => ?_, fun htrue hT => ?_⟩
        · obtain ⟨hle, hfc0, hacc⟩ := hih.2.1 hfalse
          refine ⟨fun j => ?_, hfc0, hacc⟩
          have h1 : fc ws3 j ≤ fc ws2 j := hFs.2.1 rfl j
          have h2 : fc ws2 j ≤ fc ws j := by
            by_cases hj : cur = j
            · subst hj
              have h3 := fc_mark_self hmem hlt
              rw [← hws2] at h3
              omega
            · rw [fc_updateWord_ne _ _ hj]
          exact le_trans (hle j) (le_trans h1 h2)
        · have hT3 := testedLen_stable (searchStep_trans hstep13 hih.1) hT
          have hT3b := testedLen_stable hstep13 hT
          exact chainExt_congr hstep13.1 (hih.2.2 htrue hT3b)

theorem find_words_recursive_spec : ∀ r : Nat, FwrSpec (find_words_recursive r) r := by
  intro r
  induction r with
  | zero =>
    intro ws s cur acc res hres
    simp [find_words_recursive] at hres
  | succ k ih =>
    cases k with
    | zero =>
      intro ws s cur acc res hres
      simp only [find_words_recursive] at hres
      obtain rfl : ((ws.getD cur default).is_sentence_ender, ws, s, acc) = res :=
        Option.some.inj hres
      refine ⟨searchStep_refl ws, fun _ j => le_refl _, fun htrue => ?_⟩
      exact ⟨[], (List.append_nil acc).symm, rfl, rfl, htrue⟩
    | succ j =>
      intro ws s cur acc res hres
      simp only [find_words_recursive] at hres
      have hs := tryNext_spec _ _ ih _ _ _ _ _ _ hres
      have hzero : searchStep ws (updateWord ws cur (fun w0 =>
          { w0 with tested := List.replicate w0.next_words.length false })) :=
        searchStep_zero ws cur
      refine ⟨searchStep_trans hzero hs.1, fun hfalse => ?_, fun htrue => ?_⟩
      · intro j'
        obtain ⟨hle, hfc0, _⟩ := hs.2.1 hfalse
        by_cases hj : cur = j'
        · subst hj
          rw [hfc0]
          exact Nat.zero_le _
        · have h2 := hle j'
          rw [fc_updateWord_ne _ _ hj] at h2
          exact h2
      · have hT := zero_tested_ht ws cur
        have hc := hs.2.2 htrue hT
        exact chainExt_congr hzero.1 hc

theorem tryNext_total (F : List Word → List Nat → Nat → List Nat → Option SearchRes)
    (r : Nat) (hF : FwrSpec F r) (hFt : FwrTotal F) :
    ∀ (fuel : Nat) (ws : List Word) (s : List Nat) (cur : Nat) (acc : List Nat),
      fc ws cur ≤ fuel → (tryNext F fuel ws s cur acc).isSome = true := by
  intro fuel
  induction fuel with
  | zero =>
    intro ws s cur acc hfc
    have hemp : (untriedIdx (ws.getD cur default).tested).isEmpty = true := by
      rw [List.isEmpty_iff, ← List.length_eq_zero]
      unfold fc at hfc
      omega
    simp only [tryNext, hemp, if_pos]
    rfl
  | succ f ih =>
    intro ws s cur acc hfc
    by_cases hemp : (untriedIdx (ws.getD cur default).tested).isEmpty
    · simp only [tryNext, hemp, if_pos]
      rfl
    · have hne : untriedIdx (ws.getD cur default).tested ≠ [] :=
        fun h => hemp (by rw [h]; rfl)
      have hlt : cur < ws.length := lt_length_of_untried_ne_nil hne
      have hupos : 0 < (untriedIdx (ws.getD cur default).tested).length :=
        List.length_pos.mpr hne
      have hmem : (untriedIdx (ws.getD cur default).tested).getD
          (s.headD 0 % (untriedIdx (ws.getD cur default).tested).length) 0 ∈
            untriedIdx (ws.getD cur default).tested :=
        getD_mem 0 (Nat.mod_lt _ hupos)
      simp only [tryNext, hemp, if_neg, Bool.false_eq_true, not_false_iff]
      obtain ⟨⟨b, ws3, s3, acc3⟩, heq⟩ := Option.isSome_iff_exists.mp (hFt _ _ _ _)
      rw [heq]
      cases b
      · have hFs := hF _ _ _ _ _ heq
        have hmark := fc_mark_self hmem hlt
        apply ih
        have h1 : fc ws3 cur ≤ fc (updateWord ws cur (fun w0 =>
            { w0 with tested := w0.tested.set ((untriedIdx (ws.getD cur default).tested).getD
              (s.headD 0 % (untriedIdx (ws.getD cur default).tested).length) 0) true })) cur :=
          hFs.2.1 rfl cur
        omega
      · rfl

theorem find_words_recursive_total :
    ∀ r : Nat, 1 ≤ r → FwrTotal (find_words_recursive r) := by
  intro r
  induction r with
  | zero => omega
  | succ k ih =>
    intro _
    cases k with
    | zero =>
      intro ws s cur acc
      simp [find_words_recursive]
    | succ j =>
      intro ws s cur acc
      simp only [find_words_recursive]
      apply tryNext_total _ _ (find_words_recursive_spec (j + 1)) (ih (by omega))
      by_cases hc : cur < ws.length
      · rw [fc_zero_self hc]
      · rw [updateWord_out_of_range _ (by omega)]
        unfold fc
        rw [List.getD_eq_default _ _ (by omega)]
        exact Nat.zero_le _

theorem find_start_loop_spec :
    ∀ (fuel : Nat) (checked : List Bool) (ws : List Word) (s : List Nat) (len : Nat)
      (ssw : List Nat) (res : SearchRes),
      checked.length = ssw.length →
      find_start_loop fuel checked ws s len ssw = some res →
      searchStep ws res.2.1 ∧
      (res.1 = true → ∃ hd ext, res.2.2.2 = hd :: ext ∧ hd ∈ ssw ∧
        (hd :: ext).length = len ∧ chain_linked ws (hd :: ext) = true ∧
        (ws.getD ((hd :: ext).getLastD 0) default).is_sentence_ender = true) := by
  intro fuel
  induction fuel with
  | zero =>
    intro checked ws s len ssw res hlen hres
    simp only [find_start_loop] at hres
    split at hres
    · obtain rfl : (false, ws, s, []) = res := Option.some.inj hres
      exact ⟨searchStep_refl ws, fun h => by simp at h⟩
    · simp at hres
  | succ f ih =>
    intro checked ws s len ssw res hlen hres
    simp only [find_start_loop] at hres
    split at hres
    case isTrue =>
      obtain rfl : (false, ws, s, []) = res := Option.some.inj hres
      exact ⟨searchStep_refl ws, fun h => by simp at h⟩
    case isFalse hu =>
      have hne : untriedIdx checked ≠ [] := fun h => hu (by rw [h]; rfl)
      have hupos : 0 < (untriedIdx checked).length := List.length_pos.mpr hne
      set idx := (untriedIdx checked).getD (s.headD 0 % (untriedIdx checked).length) 0 with hidx
      have hmem : idx ∈ untriedIdx checked := getD_mem 0 (Nat.mod_lt _ hupos)
      have hidxlt : idx < ssw.length := by
        have h1 := (mem_untriedIdx.mp hmem).1
        omega
      set start := ssw.getD idx 0 with hstart
      have hstartmem : start ∈ ssw := getD_mem 0 hidxlt
      split at hres
      · simp at hres
      · next ws3 s3 acc3 heq =>
        obtain rfl : (true, ws3, s3, acc3) = res := Option.some.inj hres
        have hFs := find_words_recursive_spec len _ _ _ _ _ heq
        refine ⟨hFs.1, fun _ => ?_⟩
        obtain ⟨ext, he1, he2, he3, he4⟩ := hFs.2.2 rfl
        refine ⟨start, ext, ?_, hstartmem, ?_, he3, he4⟩
        · rw [he1]
          rfl
        · simp only [List.length_cons]
          omega
      · next ws3 s3 acc3 heq =>
        have hFs := find_words_recursive_spec len _ _ _ _ _ heq
        have hih := ih _ _ _ _ _ _ (by rw [List.length_set]; exact hlen) hres
        refine ⟨searchStep_trans hFs.1 hih.1, fun htrue => ?_⟩
        obtain ⟨hd, ext, g1, g2, g3, g4, g5⟩ := hih.2 htrue
        refine ⟨hd, ext, g1, g2, g3, ?_, ?_⟩
        · rw [chain_linked_congr hFs.1.1]
          exact g4
        · rw [sameCore_ender hFs.1.1]
          exact g5

theorem find_start_loop_total :
    ∀ (fuel : Nat) (checked : List Bool) (ws : List Word) (s : List Nat) (len : Nat)
      (ssw : List Nat), 1 ≤ len → (untriedIdx checked).length ≤ fuel →
      (find_start_loop fuel checked ws s len ssw).isSome = true := by
  intro fuel
  induction fuel with
  | zero =>
    intro checked ws s len ssw hlen hfc
    have hemp : (untriedIdx checked).isEmpty = true := by
      rw [List.isEmpty_iff, ← List.length_eq_zero]
      omega
    simp only [find_start_loop, hemp, if_pos]
    rfl
  | succ f ih =>
    intro checked ws s len ssw hlen hfc
    by_cases hemp : (untriedIdx checked).isEmpty
    · simp only [find_start_loop, hemp, if_pos]
      rfl
    · have hne : untriedIdx checked ≠ [] := fun h => hemp (by rw [h]; rfl)
      have hupos : 0 < (untriedIdx checked).length := List.length_pos.mpr hne
      have hmem : (untriedIdx checked).getD (s.headD 0 % (untriedIdx checked).length) 0 ∈
          untriedIdx checked := getD_mem 0 (Nat.mod_lt _ hupos)
      simp only [find_start_loop, hemp, if_neg, not_false_iff]
      obtain ⟨⟨b, ws3, s3, acc3⟩, heq⟩ :=
        Option.isSome_iff_exists.mp (find_words_recursive_total len hlen ws s.tail _ _)
      rw [heq]
      cases b
      · apply ih _ _ _ _ _ hlen
        have h2 := length_untriedIdx_set_true hmem
        omega
      · rfl

theorem find_words_spec {m : Model} {len : Nat} {s : List Nat} {res : SearchRes}
    (h : find_words m len s = some res) :
    sameCore m.words res.2.1 ∧
    (res.1 = true → res.2.2.2.length = len ∧ isValidChain m res.2.2.2 = true) := by
  unfold find_words at h
  have hs := find_start_loop_spec _ _ _ _ _ _ _ (by rw [List.length_replicate]) h
  refine ⟨hs.1.1, fun htrue => ?_⟩
  obtain ⟨hd, ext, g1, g2, g3, g4, g5⟩ := hs.2 htrue
  rw [g1]
  refine ⟨g3, ?_⟩
  simp only [isValidChain, Bool.and_eq_true]
  exact ⟨⟨List.elem_iff.mpr g2, g4⟩, g5⟩

theorem find_words_total (m : Model) (len : Nat) (s : List Nat) (h : 1 ≤ len) :
    (find_words m len s).isSome = true := by
  unfold find_words
  apply find_start_loop_total _ _ _ _ _ _ h
  rw [untriedIdx_replicate_false, List.length_range]

/-! ### Builder lemmas -/

theorem search_words_some : ∀ (ws : List Word) (buf : List Char) (i : Nat),
    search_words ws buf = some i → i < ws.length ∧ (ws.getD i default).string = buf := by
  intro ws
  induction ws with
  | nil => intro buf i h; simp [search_words] at h
  | cons w rest ih =>
    intro buf i h
    rw [search_words] at h
    split at h
    case isTrue hw =>
      obtain rfl : (0 : Nat) = i := Option.some.inj h
      exact ⟨by simp, by simpa using hw⟩
    case isFalse hw =>
      cases hrec : search_words rest buf with
      | none => rw [hrec] at h; simp at h
      | some k =>
        rw [hrec] at h
        obtain rfl : k + 1 = i := by simpa using h
        obtain ⟨hlt, hstr⟩ := ih buf k hrec
        refine ⟨by simp; omega, ?_⟩
        rw [List.getD_cons_succ]
        exact hstr

theorem search_words_none : ∀ (ws : List Word) (buf : List Char),
    search_words ws buf = none → ∀ w ∈ ws, ¬(w.string = buf) := by
  intro ws
  induction ws with
  | nil => intro buf _ w hw; simp at hw
  | cons w rest ih =>
    intro buf h v hv
    rw [search_words] at h
    split at h
    case isTrue hw => simp at h
    case isFalse hw =>
      rcases List.mem_cons.mp hv with rfl | hv2
      · simpa using hw
      · cases hrec : search_words rest buf with
        | none => exact ih buf hrec v hv2
        | some k => rw [hrec] at h; simp at h

theorem map_updateWord {β : Type} (g : Word → β) (ws : List Word) (i : Nat) (f : Word → Word)
    (h : g (f (ws.getD i default)) = g (ws.getD i default)) :
    (updateWord ws i f).map g = ws.map g := by
  unfold updateWord
  rw [List.map_set, h, ← getD_map g ws i default, set_getD_self]

theorem occSum_updateWord_pres (ws : List Word) (i : Nat) (f : Word → Word)
    (h : ∀ w, (f w).n_occurrences = w.n_occurrences) :
    occSum (updateWord ws i f) = occSum ws := by
  unfold occSum
  rw [map_updateWord _ _ _ _ (h _)]

theorem sum_set_add_one : ∀ (l : List Nat) (i : Nat), i < l.length →
    (l.set i (l.getD i 0 + 1)).sum = l.sum + 1 := by
  intro l
  induction l with
  | nil => intro i h; simp at h
  | cons a t ih =>
    intro i h
    cases i with
    | zero =>
      simp only [List.getD_cons_zero, List.set_cons_zero, List.sum_cons]
      omega
    | succ k =>
      have hk : k < t.length := by simpa using h
      simp only [List.getD_cons_succ, List.set_cons_succ, List.sum_cons]
      rw [ih k hk]
      omega

theorem occSum_bump (ws : List Word) (i : Nat) (f : Word → Word) (h : i < ws.length)
    (hf : (f (ws.getD i default)).n_occurrences = (ws.getD i default).n_occurrences + 1) :
    occSum (updateWord ws i f) = occSum ws + 1 := by
  unfold occSum updateWord
  rw [List.map_set, hf]
  have hmap : (ws.map (fun w => w.n_occurrences)).getD i 0 = (ws.getD i default).n_occurrences :=
    getD_map (fun w => w.n_occurrences) ws i default
  rw [← hmap]
  exact sum_set_add_one _ _ (by rw [List.length_map]; exact h)

theorem occSum_add_next (ws : List Word) (buf : List Char) (e n : Bool) :
    occSum (add_next_word_to_model ws buf e n).1 = occSum ws + 1 := by
  simp only [add_next_word_to_model]
  split
  case h_1 i heq =>
    show occSum (updateWord ws i fun w =>
      { w with is_sentence_ender := w.is_sentence_ender || e,
               n_occurrences := w.n_occurrences + 1 }) = occSum ws + 1
    refine occSum_bump _ _ _ (search_words_some _ _ _ heq).1 ?_
    rfl
  case h_2 heq =>
    simp [create_word, occSum]

theorem occSum_processToken (st : BuildState) (t : List Char) :
    occSum (processToken st t).words = occSum st.words + 1 := by
  simp only [processToken]
  have h1 := occSum_add_next st.words (check_if_ends_sentence t).2 (check_if_ends_sentence t).1
    st.newSentence
  have h2 : occSum (if st.newSentence then
        (add_next_word_to_model st.words (check_if_ends_sentence t).2
          (check_if_ends_sentence t).1 st.newSentence).1
      else
        match st.thisWord with
        | some p => link_words (add_next_word_to_model st.words (check_if_ends_sentence t).2
            (check_if_ends_sentence t).1 st.newSentence).1 p
            (add_next_word_to_model st.words (check_if_ends_sentence t).2
              (check_if_ends_sentence t).1 st.newSentence).2
        | none => (add_next_word_to_model st.words (check_if_ends_sentence t).2
            (check_if_ends_sentence t).1 st.newSentence).1) =
      occSum st.words + 1 := by
    split
    · exact h1
    · split
      · refine Eq.trans (occSum_updateWord_pres _ _ _ ?_) h1
        intro w
        rfl
      · exact h1
  split
  · refine Eq.trans (occSum_updateWord_pres _ _ _ ?_) h2
    intro w
    rfl
  · exact h2

theorem getD_append_length {α : Type} (l : List α) (a d : α) :
    (l ++ [a]).getD l.length d = a := by
  induction l with
  | nil => rfl
  | cons b t ih => simp [ih]

theorem one_le_words_add_next (ws : List Word) (buf : List Char) (e n : Bool) :
    1 ≤ (add_next_word_to_model ws buf e n).1.length := by
  simp only [add_next_word_to_model]
  split
  case h_1 i heq =>
    have hlt := (search_words_some _ _ _ heq).1
    show 1 ≤ (updateWord ws i fun w =>
      { w with is_sentence_ender := w.is_sentence_ender || e,
               n_occurrences := w.n_occurrences + 1 }).length
    rw [length_updateWord]
    omega
  case h_2 heq =>
    simp [create_word]

theorem words_length_processToken (st : BuildState) (t : List Char) :
    (processToken st t).words.length =
      (add_next_word_to_model st.words (check_if_ends_sentence t).2
        (check_if_ends_sentence t).1 st.newSentence).1.length := by
  simp only [processToken, link_words]
  split
  · rw [length_updateWord]
    split
    · rfl
    · split
      · exact length_updateWord ..
      · rfl
  · split
    · rfl
    · split
      · exact length_updateWord ..
      · rfl

theorem one_le_words_processToken (st : BuildState) (t : List Char) :
    1 ≤ (processToken st t).words.length := by
  rw [words_length_processToken]
  exact one_le_words_add_next ..

theorem one_le_words_foldl : ∀ (ts : List (List Char)) (st : BuildState),
    1 ≤ st.words.length → 1 ≤ ((ts.foldl processToken st).words).length := by
  intro ts
  induction ts with
  | nil => intro st h; exact h
  | cons t rest ih =>
    intro st _
    rw [List.foldl_cons]
    exact ih _ (one_le_words_processToken st t)

theorem create_model_eq_none_iff (ts : List (List Char)) :
    create_model ts = none ↔ ts = [] := by
  cases ts with
  | nil => simp [create_model, buildState, initBuildState]
  | cons t rest =>
    simp only [create_model, buildState]
    rw [List.foldl_cons]
    have h1 : 1 ≤ ((rest.foldl processToken (processToken initBuildState t)).words).length :=
      one_le_words_foldl rest _ (one_le_words_processToken _ _)
    have hne : (rest.foldl processToken (processToken initBuildState t)).words ≠ [] := by
      intro he
      rw [he] at h1
      simp at h1
    simp [hne]

theorem occSum_foldl : ∀ (ts : List (List Char)) (st : BuildState),
    occSum ((ts.foldl processToken st).words) = occSum st.words + ts.length := by
  intro ts
  induction ts with
  | nil => intro st; simp
  | cons t rest ih =>
    intro st
    rw [List.foldl_cons, ih, occSum_processToken]
    simp only [List.length_cons]
    omega

theorem ssw_processToken (st : BuildState) (t : List Char) :
    (processToken st t).ssw = st.ssw ∨ ∃ x, (processToken st t).ssw = st.ssw ++ [x] := by
  by_cases h : st.newSentence
  · right
    refine ⟨(add_next_word_to_model st.words (check_if_ends_sentence t).2
      (check_if_ends_sentence t).1 true).2, ?_⟩
    simp [processToken, h]
  · left
    simp [processToken, h]

theorem ssw_foldl_ne_nil : ∀ (ts : List (List Char)) (st : BuildState),
    st.ssw ≠ [] → ((ts.foldl processToken st).ssw) ≠ [] := by
  intro ts
  induction ts with
  | nil => intro st h; exact h
  | cons t rest ih =>
    intro st h
    rw [List.foldl_cons]
    refine ih _ ?_
    rcases ssw_processToken st t with h2 | ⟨x, h2⟩
    · rw [h2]; exact h
    · rw [h2]; simp

theorem ssw_first (t : List Char) : (processToken initBuildState t).ssw ≠ [] := by
  simp [processToken, initBuildState]

theorem create_model_some_props {ts : List (List Char)} {m : Model}
    (h : create_model ts = some m) :
    m.sentence_starting_words ≠ [] ∧ occSum m.words = ts.length := by
  cases ts with
  | nil => simp [create_model, buildState, initBuildState] at h
  | cons t rest =>
    simp only [create_model, buildState] at h
    split at h
    · simp at h
    · obtain rfl := Option.some.inj h
      constructor
      · show (List.foldl processToken initBuildState (t :: rest)).ssw ≠ []
        rw [List.foldl_cons]
        exact ssw_foldl_ne_nil rest _ (ssw_first t)
      · show occSum (List.foldl processToken initBuildState (t :: rest)).words = _
        rw [occSum_foldl]
        simp [initBuildState, occSum]

theorem hasEmptyEnder_updateWord {ws : List Word} {i : Nat} {f : Word → Word}
    (hstr : ∀ w, (f w).string = w.string)
    (hend : ∀ w, w.is_sentence_ender = true → (f w).is_sentence_ender = true)
    (h : hasEmptyEnder ws) : hasEmptyEnder (updateWord ws i f) := by
  obtain ⟨j, hj, h1, h2⟩ := h
  refine ⟨j, by rw [length_updateWord]; exact hj, ?_⟩
  by_cases hij : i = j
  · subst hij
    rw [getD_updateWord_self _ hj]
    exact ⟨(hstr _).trans h1, hend _ h2⟩
  · rw [getD_updateWord_ne _ _ hij]
    exact ⟨h1, h2⟩

theorem hasEmptyEnder_append {ws : List Word} (l : List Word) (h : hasEmptyEnder ws) :
    hasEmptyEnder (ws ++ l) := by
  obtain ⟨j, hj, h1, h2⟩ := h
  refine ⟨j, ?_, ?_⟩
  · rw [List.length_append]
    omega
  · rw [List.getD_append _ _ _ _ hj]
    exact ⟨h1, h2⟩

theorem hasEmptyEnder_add_next (ws : List Word) (buf : List Char) (e n : Bool)
    (h : hasEmptyEnder ws) : hasEmptyEnder (add_next_word_to_model ws buf e n).1 := by
  simp only [add_next_word_to_model]
  split
  case h_1 i heq =>
    show hasEmptyEnder (updateWord ws i fun w =>
      { w with is_sentence_ender := w.is_sentence_ender || e,
               n_occurrences := w.n_occurrences + 1 })
    refine hasEmptyEnder_updateWord ?_ ?_ h
    · intro w
      rfl
    · intro w hw
      simp [hw]
  case h_2 heq =>
    exact hasEmptyEnder_append _ h

theorem hasEmptyEnder_processToken (st : BuildState) (t : List Char)
    (h : hasEmptyEnder st.words) : hasEmptyEnder (processToken st t).words := by
  have h1 := hasEmptyEnder_add_next st.words (check_if_ends_sentence t).2
    (check_if_ends_sentence t).1 st.newSentence h
  simp only [processToken, link_words]
  have h2 : ∀ ws2 : List Word, hasEmptyEnder ws2 →
      ∀ i : Nat, hasEmptyEnder (updateWord ws2 i fun w =>
        { w with is_sentence_ender := true }) := by
    intro ws2 hw i
    refine hasEmptyEnder_updateWord ?_ ?_ hw
    · intro w
      rfl
    · intro w _
      rfl
  split
  · split
    · exact h2 _ h1 _
    · split
      · refine h2 _ ?_ _
        refine hasEmptyEnder_updateWord ?_ ?_ h1
        · intro w
          rfl
        · intro w hw
          exact hw
      · exact h2 _ h1 _
  · split
    · exact h1
    · split
      · refine hasEmptyEnder_updateWord ?_ ?_ h1
        · intro w
          rfl
        · intro w hw
          exact hw
      · exact h1

theorem create_word_getD (ws : List Word) (buf : List Char) (e : Bool) :
    (create_word ws buf e).1.getD ws.length default =
      { string := buf, n_occurrences := 1, is_sentence_ender := e,
        next_words := [], tested := [] } := by
  simp only [create_word]
  exact getD_append_length ..

theorem hasEmptyEnder_establish (st : BuildState) (c : Char) (hc : isTerminator c = true) :
    hasEmptyEnder (processToken st [c]).words := by
  have hce : check_if_ends_sentence [c] = (true, []) := by
    simp [check_if_ends_sentence, hc]
  have h1 : hasEmptyEnder (add_next_word_to_model st.words [] true st.newSentence).1 := by
    simp only [add_next_word_to_model]
    have hbuf : (if st.newSentence then lowerFirst [] else ([] : List Char)) = [] := by
      cases st.newSentence <;> rfl
    rw [hbuf]
    split
    case h_1 i heq =>
      obtain ⟨hlt, hstr⟩ := search_words_some _ _ _ heq
      show hasEmptyEnder (updateWord st.words i fun w =>
        { w with is_sentence_ender := w.is_sentence_ender || true,
                 n_occurrences := w.n_occurrences + 1 })
      refine ⟨i, by rw [length_updateWord]; exact hlt, ?_, ?_⟩
      · rw [getD_updateWord_self _ hlt]
        exact hstr
      · rw [getD_updateWord_self _ hlt]
        simp
    case h_2 heq =>
      refine ⟨st.words.length, by simp [create_word], ?_, ?_⟩
      · rw [create_word_getD]
      · rw [create_word_getD]
  have h2 : ∀ ws2 : List Word, hasEmptyEnder ws2 →
      ∀ i : Nat, hasEmptyEnder (updateWord ws2 i fun w =>
        { w with is_sentence_ender := true }) := by
    intro ws2 hw i
    refine hasEmptyEnder_updateWord ?_ ?_ hw
    · intro w
      rfl
    · intro w _
      rfl
  simp only [processToken, link_words, hce]
  split
  · split
    · exact h2 _ h1 _
    · split
      · refine h2 _ ?_ _
        refine hasEmptyEnder_updateWord ?_ ?_ h1
        · intro w
          rfl
        · intro w hw
          exact hw
      · exact h2 _ h1 _
  · split
    · exact h1
    · split
      · refine hasEmptyEnder_updateWord ?_ ?_ h1
        · intro w
          rfl
        · intro w hw
          exact hw
      · exact h1

theorem hasEmptyEnder_foldl : ∀ (ts : List (List Char)) (st : BuildState),
    hasEmptyEnder st.words → hasEmptyEnder ((ts.foldl processToken st).words) := by
  intro ts
  induction ts with
  | nil => intro st h; exact h
  | cons t rest ih =>
    intro st h
    rw [List.foldl_cons]
    exact ih _ (hasEmptyEnder_processToken st t h)

theorem hasEmptyEnder_mem {ws : List Word} (h : hasEmptyEnder ws) :
    ∃ w ∈ ws, w.string = [] ∧ w.is_sentence_ender = true := by
  obtain ⟨j, hj, h1, h2⟩ := h
  exact ⟨ws.getD j default, getD_mem default hj, h1, h2⟩

/-! ### Formatter lemmas -/

theorem c_toupper_letter {c : Char} (h : isAsciiLetter c = true) :
    isUpperAscii (c_toupper c) = true ∧ isWhitespaceChar (c_toupper c) = false ∧
      c_toupper c ≠ '.' := by
  have hd := of_decide_eq_true h
  unfold c_toupper
  rcases hd with ⟨h1, h2⟩ | ⟨h1, h2⟩
  · rw [if_neg]
    · have hne1 : c ≠ ' ' := fun he => by subst he; exact absurd h1 (by decide)
      have hne2 : c ≠ '\t' := fun he => by subst he; exact absurd h1 (by decide)
      have hne3 : c ≠ '\n' := fun he => by subst he; exact absurd h1 (by decide)
      have hne4 : c ≠ '\x0d' := fun he => by subst he; exact absurd h1 (by decide)
      have hne5 : c ≠ '.' := fun he => by subst he; exact absurd h1 (by decide)
      refine ⟨decide_eq_true ⟨h1, h2⟩, ?_, hne5⟩
      simp [isWhitespaceChar, hne1, hne2, hne3, hne4]
    · rintro ⟨h3, _⟩
      have ha : (97 : Nat) ≤ c.toNat := h3
      have hb : c.toNat ≤ 90 := h2
      omega
  · rw [if_pos ⟨h1, h2⟩]
    have ha : (97 : Nat) ≤ c.toNat := h1
    have hb : c.toNat ≤ 122 := h2
    have hd2 : c.toNat = 97 ∨ c.toNat = 98 ∨ c.toNat = 99 ∨ c.toNat = 100 ∨ c.toNat = 101 ∨
        c.toNat = 102 ∨ c.toNat = 103 ∨ c.toNat = 104 ∨ c.toNat = 105 ∨ c.toNat = 106 ∨
        c.toNat = 107 ∨ c.toNat = 108 ∨ c.toNat = 109 ∨ c.toNat = 110 ∨ c.toNat = 111 ∨
        c.toNat = 112 ∨ c.toNat = 113 ∨ c.toNat = 114 ∨ c.toNat = 115 ∨ c.toNat = 116 ∨
        c.toNat = 117 ∨ c.toNat = 118 ∨ c.toNat = 119 ∨ c.toNat = 120 ∨ c.toNat = 121 ∨
        c.toNat = 122 := by omega
    rcases hd2 with h3|h3|h3|h3|h3|h3|h3|h3|h3|h3|h3|h3|h3|h3|h3|h3|h3|h3|h3|h3|h3|h3|h3|h3|h3|h3 <;>
      rw [h3] <;> exact ⟨by decide, by decide, by decide⟩

theorem countTokensAux_run : ∀ (t : List Char) (b : Bool) (rest : List Char),
    t ≠ [] → (∀ c ∈ t, isWhitespaceChar c = false) →
    countTokensAux b (t ++ rest) = (if b then 0 else 1) + countTokensAux true rest := by
  intro t
  induction t with
  | nil => intro b rest h _; exact absurd rfl h
  | cons c t' ih =>
    intro b rest _ hall
    have hc : isWhitespaceChar c = false := hall c (by simp)
    by_cases ht : t' = []
    · subst ht
      simp [countTokensAux, hc]
    · have ihr := ih true rest ht (fun x hx => hall x (by simp [hx]))
      simp [countTokensAux, hc, ihr]

theorem countTokensAux_space (rest : List Char) (b : Bool) :
    countTokensAux b (' ' :: rest) = countTokensAux false rest := by
  simp [countTokensAux, isWhitespaceChar]

theorem countTokens_join : ∀ texts : List (List Char), texts ≠ [] →
    (∀ t ∈ texts, t ≠ [] ∧ ∀ c ∈ t, isWhitespaceChar c = false) →
    countTokensAux false (join_texts texts) = texts.length := by
  intro texts
  induction texts with
  | nil => intro h _; exact absurd rfl h
  | cons t ts ih =>
    intro _ hall
    obtain ⟨hne, hnws⟩ := hall t (by simp)
    cases ts with
    | nil =>
      show countTokensAux false (t ++ ['.']) = 1
      rw [countTokensAux_run t false ['.'] hne hnws]
      simp [countTokensAux, isWhitespaceChar]
    | cons t2 r =>
      show countTokensAux false (t ++ [' '] ++ join_texts (t2 :: r)) = _
      rw [List.append_assoc]
      rw [countTokensAux_run t false _ hne hnws]
      have hsp : countTokensAux true ([' '] ++ join_texts (t2 :: r)) =
          countTokensAux false (join_texts (t2 :: r)) := countTokensAux_space _ _
      rw [hsp, ih (by simp) (fun x hx => hall x (by simp [hx]))]
      simp
      omega

theorem join_texts_cons_cons (t t2 : List Char) (r : List (List Char)) :
    join_texts (t :: t2 :: r) = t ++ [' '] ++ join_texts (t2 :: r) := rfl

theorem getLast?_eq_getLastD {α : Type} (l : List α) (d : α) (h : l ≠ []) :
    l.getLast? = some (l.getLastD d) := by
  cases hgl : l.getLast? with
  | none => exact absurd (List.getLast?_eq_none_iff.mp hgl) h
  | some y =>
    rw [List.getLastD_eq_getLast?, hgl]
    rfl

theorem getLastD_mem {α : Type} (l : List α) (d : α) (h : l ≠ []) : l.getLastD d ∈ l := by
  apply List.mem_of_mem_getLast?
  exact (getLast?_eq_getLastD l d h).symm ▸ rfl

theorem join_texts_last : ∀ (texts : List (List Char)), texts ≠ [] →
    (∀ t ∈ texts, t ≠ []) →
    ∃ z, join_texts texts = z ++ ['.'] ∧ z ≠ [] ∧
      z.getLast? = (texts.getLastD []).getLast? := by
  intro texts
  induction texts with
  | nil => intro h _; exact absurd rfl h
  | cons t ts ih =>
    intro _ hall
    have hne : t ≠ [] := hall t (by simp)
    cases ts with
    | nil => exact ⟨t, rfl, hne, rfl⟩
    | cons t2 r =>
      obtain ⟨z', hz1, hz2, hz3⟩ := ih (by simp) (fun x hx => hall x (by simp [hx]))
      refine ⟨t ++ ' ' :: z', ?_, by simp, ?_⟩
      · rw [join_texts_cons_cons, hz1]
        simp
      · rw [List.getLast?_append_of_ne_nil _ (by simp)]
        rw [show (' ' :: z' : List Char) = [' '] ++ z' from rfl]
        rw [List.getLast?_append_of_ne_nil _ hz2]
        rw [hz3, getLastD_cons_cons]

theorem countTokensAux_head_swap (x y : Char) (w : List Char)
    (hx : isWhitespaceChar x = false) (hy : isWhitespaceChar y = false) :
    countTokensAux false (x :: w) = countTokensAux false (y :: w) := by
  simp [countTokensAux, hx, hy]

theorem endsSinglePeriod_result (c : Char) (z' : List Char)
    (hlast : (c :: z').getLast? ≠ some '.')
    (hc : c_toupper c ≠ '.') :
    endsSinglePeriod (capitalize_first ((c :: z') ++ ['.'])) = true := by
  show endsSinglePeriod (c_toupper c :: (z' ++ ['.'])) = true
  unfold endsSinglePeriod
  rw [Bool.and_eq_true]
  constructor
  · rw [List.getLastD_eq_getLast?]
    rw [show (c_toupper c :: (z' ++ ['.'])) = [c_toupper c] ++ (z' ++ ['.']) from rfl]
    rw [List.getLast?_append_of_ne_nil _ (by simp)]
    rw [List.getLast?_append_of_ne_nil _ (by simp)]
    rfl
  · have hdl : (c_toupper c :: (z' ++ ['.'])).dropLast = c_toupper c :: z' := by
      rw [List.dropLast_cons_of_ne_nil (by simp), List.dropLast_concat]
    rw [hdl]
    cases z' with
    | nil =>
      simp [List.getLastD, hc]
    | cons d z'' =>
      rw [getLastD_cons_cons]
      have h2 : (d :: z'').getLast? ≠ some '.' := by
        rw [show (c :: d :: z'' : List Char) = [c] ++ (d :: z'') from rfl] at hlast
        rwa [List.getLast?_append_of_ne_nil _ (by simp)] at hlast
      rw [List.getLastD_eq_getLast?]
      cases hgl : (d :: z'').getLast? with
      | none => exact absurd (List.getLast?_eq_none_iff.mp hgl) (by simp)
      | some y =>
        rw [hgl] at h2
        have hy : y ≠ '.' := fun he => h2 (by rw [he])
        simp [hy]

theorem format_props (texts : List (List Char)) (hne : texts ≠ [])
    (hall : ∀ t ∈ texts, t ≠ [] ∧ ∀ c ∈ t, isWhitespaceChar c = false)
    (hfirst : isAsciiLetter ((texts.headD []).headD ' ') = true)
    (hlast : (texts.getLastD []).getLastD ' ' ≠ '.') :
    firstCharUpper (capitalize_first (join_texts texts)) = true ∧
    endsSinglePeriod (capitalize_first (join_texts texts)) = true ∧
    countTokens (capitalize_first (join_texts texts)) = texts.length := by
  obtain ⟨t1, ts', rfl⟩ : ∃ t1 ts', texts = t1 :: ts' := by
    cases texts with
    | nil => exact absurd rfl hne
    | cons a b => exact ⟨a, b, rfl⟩
  obtain ⟨hne1, hnws1⟩ := hall t1 (by simp)
  obtain ⟨c, t1', rfl⟩ : ∃ c t1', t1 = c :: t1' := by
    cases t1 with
    | nil => exact absurd rfl hne1
    | cons a b => exact ⟨a, b, rfl⟩
  have hcletter : isAsciiLetter c = true := hfirst
  obtain ⟨hup, hws, hdot⟩ := c_toupper_letter hcletter
  obtain ⟨z, hz1, hz2, hz3⟩ := join_texts_last ((c :: t1') :: ts') (by simp)
    (fun x hx => (hall x hx).1)
  have hjoin_head : ∃ w, join_texts ((c :: t1') :: ts') = c :: w := by
    cases ts' with
    | nil => exact ⟨t1' ++ ['.'], rfl⟩
    | cons a b =>
      refine ⟨t1' ++ [' '] ++ join_texts (a :: b), ?_⟩
      rw [join_texts_cons_cons]
      simp
  obtain ⟨w, hw⟩ := hjoin_head
  obtain ⟨z', rfl⟩ : ∃ z', z = c :: z' := by
    cases z with
    | nil => exact absurd rfl hz2
    | cons e z' =>
      have he : e = c := by
        have h3 := hz1.symm.trans hw
        simpa using congrArg List.head? h3
      subst he
      exact ⟨z', rfl⟩
  have hlastne : ((c :: t1') :: ts').getLastD [] ≠ [] :=
    (hall _ (getLastD_mem _ _ (by simp))).1
  refine ⟨?_, ?_, ?_⟩
  · rw [hz1]
    show isUpperAscii (c_toupper c) = true
    exact hup
  · rw [hz1]
    apply endsSinglePeriod_result _ _ _ hdot
    rw [hz3, getLast?_eq_getLastD _ ' ' hlastne]
    intro hcon
    exact hlast (Option.some.inj hcon)
  · rw [hw]
    show countTokensAux false (c_toupper c :: w) = _
    rw [countTokensAux_head_swap (c_toupper c) c w hws (hnws1 c (by simp))]
    have : (c :: w) = join_texts ((c :: t1') :: ts') := hw.symm
    rw [this]
    exact countTokens_join _ (by simp) hall

/-! ### Capacity lemmas -/

theorem wordStrings_updateWord (ws : List Word) (i : Nat) (f : Word → Word)
    (h : (f (ws.getD i default)).string = (ws.getD i default).string) :
    wordStrings (updateWord ws i f) = wordStrings ws :=
  map_updateWord _ _ _ _ h

theorem search_words_congr : ∀ (ws ws' : List Word) (x : List Char),
    wordStrings ws = wordStrings ws' → search_words ws x = search_words ws' x := by
  intro ws
  induction ws with
  | nil =>
    intro ws' x h
    cases ws' with
    | nil => rfl
    | cons _ _ => simp [wordStrings] at h
  | cons w rest ih =>
    intro ws' x h
    cases ws' with
    | nil => simp [wordStrings] at h
    | cons w' rest' =>
      simp only [wordStrings, List.map_cons, List.cons.injEq] at h
      rw [search_words, search_words, h.1, ih rest' x (by simpa [wordStrings] using h.2)]

theorem getD_string_updateWord_pres (ws : List Word) (i : Nat) (f : Word → Word)
    (hstr : ∀ w, (f w).string = w.string) (j : Nat) :
    ((updateWord ws i f).getD j default).string = (ws.getD j default).string := by
  by_cases hij : i = j
  · subst hij
    by_cases hlt : i < ws.length
    · rw [getD_updateWord_self _ hlt]
      exact hstr _
    · rw [updateWord_out_of_range _ (by omega)]
  · rw [getD_updateWord_ne _ _ hij]

theorem nwOf_updateWord_pres (ws : List Word) (i : Nat) (f : Word → Word)
    (hstr : (f (ws.getD i default)).string = (ws.getD i default).string)
    (hnw : (f (ws.getD i default)).next_words = (ws.getD i default).next_words)
    (x : List Char) : nwOf (updateWord ws i f) x = nwOf ws x := by
  unfold nwOf
  rw [search_words_congr (updateWord ws i f) ws x (wordStrings_updateWord _ _ _ hstr)]
  cases hsw : search_words ws x with
  | none => rfl
  | some j =>
    show ((updateWord ws i f).getD j default).next_words.length =
      (ws.getD j default).next_words.length
    by_cases hij : i = j
    · subst hij
      by_cases hlt : i < ws.length
      · rw [getD_updateWord_self _ hlt, hnw]
      · rw [updateWord_out_of_range _ (by omega)]
    · rw [getD_updateWord_ne _ _ hij]

theorem nwOf_link (ws : List Word) (p idx : Nat) (x : List Char) :
    nwOf (link_words ws p idx) x ≤
      nwOf ws x + (if (ws.getD p default).string = x then 1 else 0) := by
  unfold nwOf link_words
  rw [search_words_congr _ ws x (wordStrings_updateWord _ _ _ rfl)]
  cases hsw : search_words ws x with
  | none => simp
  | some j =>
    show ((updateWord ws p fun w =>
        { w with next_words := w.next_words ++ [idx] }).getD j default).next_words.length ≤
      (ws.getD j default).next_words.length +
        (if (ws.getD p default).string = x then 1 else 0)
    by_cases hpj : p = j
    · subst hpj
      by_cases hlt : p < ws.length
      · rw [getD_updateWord_self _ hlt]
        have hx : (ws.getD p default).string = x := (search_words_some _ _ _ hsw).2
        rw [if_pos hx]
        simp
      · rw [updateWord_out_of_range _ (by omega)]
        split <;> omega
    · rw [getD_updateWord_ne _ _ hpj]
      split <;> omega

theorem search_words_append_one (ws : List Word) (nw : Word) (x : List Char) :
    search_words (ws ++ [nw]) x =
      match search_words ws x with
      | some j => some j
      | none => if nw.string == x then some ws.length else none := by
  induction ws with
  | nil =>
    rw [List.nil_append]
    cases hb : (nw.string == x) with
    | true => simp [search_words, hb]
    | false => simp [search_words, hb]
  | cons w rest ih =>
    rw [List.cons_append, search_words, search_words]
    by_cases hw : (w.string == x) = true
    · rw [if_pos hw, if_pos hw]
    · rw [if_neg hw, if_neg hw, ih]
      cases hsr : search_words rest x with
      | some j => rfl
      | none =>
        cases hb : (nw.string == x) with
        | true => simp
        | false => simp

theorem nwOf_append_new (ws : List Word) (text : List Char) (e : Bool) (x : List Char) :
    nwOf (ws ++ [{ string := text, n_occurrences := 1, is_sentence_ender := e,
                   next_words := [], tested := [] }]) x = nwOf ws x := by
  unfold nwOf
  rw [search_words_append_one]
  cases hsw : search_words ws x with
  | some j =>
    show ((ws ++ [_]).getD j default).next_words.length = (ws.getD j default).next_words.length
    rw [List.getD_append _ _ _ _ (search_words_some _ _ _ hsw).1]
  | none =>
    by_cases hx : text = x
    · subst hx
      simp [getD_append_length]
    · simp [hx]

theorem not_mem_wordStrings_of_search_none {ws : List Word} {buf : List Char}
    (h : search_words ws buf = none) : buf ∉ wordStrings ws := by
  intro hmem
  obtain ⟨w, hw, hws⟩ := List.mem_map.mp hmem
  exact search_words_none _ _ h w hw hws

theorem add_next_main (ws : List Word) (buf : List Char) (e n : Bool) :
    (add_next_word_to_model ws buf e n).2 < (add_next_word_to_model ws buf e n).1.length ∧
    ((add_next_word_to_model ws buf e n).1.getD (add_next_word_to_model ws buf e n).2
        default).string = (if n then lowerFirst buf else buf) ∧
    (wordStrings (add_next_word_to_model ws buf e n).1 = wordStrings ws ∨
      (wordStrings (add_next_word_to_model ws buf e n).1 =
          wordStrings ws ++ [if n then lowerFirst buf else buf] ∧
        (if n then lowerFirst buf else buf) ∉ wordStrings ws)) ∧
    (∀ x, nwOf (add_next_word_to_model ws buf e n).1 x = nwOf ws x) ∧
    (∀ p, p < ws.length →
      ((add_next_word_to_model ws buf e n).1.getD p default).string =
        (ws.getD p default).string) := by
  simp only [add_next_word_to_model]
  split
  case h_1 i heq =>
    obtain ⟨hlt, hstr⟩ := search_words_some _ _ _ heq
    dsimp only
    refine ⟨?_, ?_, Or.inl ?_, ?_, ?_⟩
    · rw [length_updateWord]
      exact hlt
    · rw [getD_updateWord_self _ hlt]
      exact hstr
    · exact wordStrings_updateWord _ _ _ rfl
    · intro x
      exact nwOf_updateWord_pres _ _ _ rfl rfl x
    · intro p _
      refine getD_string_updateWord_pres _ _ _ ?_ p
      intro w
      rfl
  case h_2 heq =>
    simp only [create_word]
    refine ⟨?_, ?_, Or.inr ⟨?_, not_mem_wordStrings_of_search_none heq⟩, ?_, ?_⟩
    · simp
    · rw [getD_append_length]
    · simp [wordStrings]
    · intro x
      exact nwOf_append_new ws _ e x
    · intro p hp
      rw [List.getD_append _ _ _ _ hp]

theorem processToken_thisWord (st : BuildState) (t : List Char) :
    (processToken st t).thisWord =
      some (add_next_word_to_model st.words (check_if_ends_sentence t).2
        (check_if_ends_sentence t).1 st.newSentence).2 := rfl

theorem processToken_newSentence (st : BuildState) (t : List Char) :
    (processToken st t).newSentence = (check_if_ends_sentence t).1 := rfl

theorem ssw_length_processToken (st : BuildState) (t : List Char) :
    (processToken st t).ssw.length =
      st.ssw.length + (if st.newSentence then 1 else 0) := by
  by_cases h : st.newSentence <;> simp [processToken, h]

theorem wordStrings_processToken (st : BuildState) (t : List Char) :
    wordStrings (processToken st t).words =
      wordStrings (add_next_word_to_model st.words (check_if_ends_sentence t).2
        (check_if_ends_sentence t).1 st.newSentence).1 := by
  simp only [processToken, link_words]
  split
  · refine Eq.trans (wordStrings_updateWord _ _ _ ?_) ?_
    · rfl
    · split
      · rfl
      · split
        · refine wordStrings_updateWord _ _ _ ?_
          rfl
        · rfl
  · split
    · rfl
    · split
      · refine wordStrings_updateWord _ _ _ ?_
        rfl
      · rfl

theorem getD_string_processToken (st : BuildState) (t : List Char) (j : Nat) :
    ((processToken st t).words.getD j default).string =
      ((add_next_word_to_model st.words (check_if_ends_sentence t).2
        (check_if_ends_sentence t).1 st.newSentence).1.getD j default).string := by
  simp only [processToken, link_words]
  split
  · refine Eq.trans (getD_string_updateWord_pres _ _ _ ?_ j) ?_
    · intro w
      rfl
    · split
      · rfl
      · split
        · refine getD_string_updateWord_pres _ _ _ ?_ j
          intro w
          rfl
        · rfl
  · split
    · rfl
    · split
      · refine getD_string_updateWord_pres _ _ _ ?_ j
        intro w
        rfl
      · rfl

theorem nwOf_stage3 (wsX : List Word) (i : Nat) (x : List Char) :
    nwOf (updateWord wsX i fun w => { w with is_sentence_ender := true }) x = nwOf wsX x :=
  nwOf_updateWord_pres _ _ _ rfl rfl x

theorem nwOf_processToken_ns (st : BuildState) (t : List Char)
    (hns : st.newSentence = true) (x : List Char) :
    nwOf (processToken st t).words x = nwOf st.words x := by
  have hA := (add_next_main st.words (check_if_ends_sentence t).2
    (check_if_ends_sentence t).1 st.newSentence).2.2.2.1
  simp only [processToken, link_words, hns, if_true]
  rw [hns] at hA
  split
  · rw [nwOf_stage3]
    exact hA x
  · exact hA x

theorem nwOf_processToken_none (st : BuildState) (t : List Char)
    (hns : st.newSentence = false) (hp : st.thisWord = none) (x : List Char) :
    nwOf (processToken st t).words x = nwOf st.words x := by
  have hA := (add_next_main st.words (check_if_ends_sentence t).2
    (check_if_ends_sentence t).1 st.newSentence).2.2.2.1
  simp only [processToken, link_words, hns, hp, Bool.false_eq_true, if_false]
  rw [hns] at hA
  split
  · rw [nwOf_stage3]
    exact hA x
  · exact hA x

theorem nwOf_processToken_link (st : BuildState) (t : List Char)
    (hns : st.newSentence = false) (p : Nat) (hp : st.thisWord = some p)
    (hlt : p < st.words.length) (x : List Char) :
    nwOf (processToken st t).words x ≤
      nwOf st.words x + (if (st.words.getD p default).string = x then 1 else 0) := by
  obtain ⟨_, _, _, hA4, hA5⟩ := add_next_main st.words (check_if_ends_sentence t).2
    (check_if_ends_sentence t).1 st.newSentence
  simp only [processToken, link_words, hns, hp, Bool.false_eq_true, if_false]
  rw [hns] at hA4 hA5
  have hlink := nwOf_link ((add_next_word_to_model st.words (check_if_ends_sentence t).2
    (check_if_ends_sentence t).1 false).1) p
    ((add_next_word_to_model st.words (check_if_ends_sentence t).2
      (check_if_ends_sentence t).1 false).2) x
  rw [hA4 x, (hA5 p hlt)] at hlink
  split
  · rw [nwOf_stage3]
    exact hlink
  · exact hlink

theorem adjPairsFrom_cons (pv : Option (List Char)) (e : Bool × List Char)
    (rest : List (Bool × List Char)) :
    adjPairsFrom pv (e :: rest) =
      (if e.1 then []
       else
         match pv with
         | some p => [(p, e.2)]
         | none => []) ++ adjPairsFrom (some e.2) rest := rfl

theorem build_bounds : ∀ (ts : List (List Char)) (st : BuildState),
    (wordStrings st.words).Nodup →
    (∀ i, st.thisWord = some i → i < st.words.length) →
    (wordStrings ((ts.foldl processToken st).words)).Nodup ∧
    (∀ x, x ∈ wordStrings ((ts.foldl processToken st).words) →
        x ∈ wordStrings st.words ∨ x ∈ (normTexts ts st.newSentence).map (fun e => e.2)) ∧
    ((ts.foldl processToken st).ssw.length =
        st.ssw.length + (normTexts ts st.newSentence).countP (fun e => e.1)) ∧
    (∀ x, nwOf ((ts.foldl processToken st).words) x ≤
        nwOf st.words x +
          (adjPairsFrom (st.thisWord.map (fun i => (st.words.getD i default).string))
            (normTexts ts st.newSentence)).countP (fun pr => pr.1 == x)) := by
  intro ts
  induction ts with
  | nil =>
    intro st hnd _
    refine ⟨hnd, fun x hx => Or.inl hx, by simp [normTexts], fun x => ?_⟩
    simp [normTexts, adjPairsFrom]
  | cons t rest ih =>
    intro st hnd hinv
    rw [List.foldl_cons]
    have hS := wordStrings_processToken st t
    obtain ⟨hAb, hAs, hAstr, hAnw, hAp⟩ := add_next_main st.words (check_if_ends_sentence t).2
      (check_if_ends_sentence t).1 st.newSentence
    have hstrings : wordStrings (processToken st t).words = wordStrings st.words ∨
        (wordStrings (processToken st t).words = wordStrings st.words ++
            [if st.newSentence then lowerFirst (check_if_ends_sentence t).2
             else (check_if_ends_sentence t).2] ∧
          (if st.newSentence then lowerFirst (check_if_ends_sentence t).2
           else (check_if_ends_sentence t).2) ∉ wordStrings st.words) := by
      rw [hS]
      exact hAstr
    have hnd1 : (wordStrings (processToken st t).words).Nodup := by
      rcases hstrings with h | ⟨h, hnm⟩
      · rw [h]
        exact hnd
      · rw [h]
        rw [List.nodup_append]
        exact ⟨hnd, List.nodup_singleton _, by simpa using hnm⟩
    have hinv1 : ∀ i, (processToken st t).thisWord = some i →
        i < (processToken st t).words.length := by
      intro i hi
      rw [processToken_thisWord] at hi
      obtain rfl := Option.some.inj hi
      rw [words_length_processToken]
      exact hAb
    have hns1 : (processToken st t).newSentence = (check_if_ends_sentence t).1 :=
      processToken_newSentence st t
    have hprev1 : (processToken st t).thisWord.map
        (fun i => ((processToken st t).words.getD i default).string) =
          some (if st.newSentence then lowerFirst (check_if_ends_sentence t).2
            else (check_if_ends_sentence t).2) := by
      rw [processToken_thisWord, Option.map_some']
      rw [getD_string_processToken]
      rw [hAs]
    obtain ⟨ih1, ih2, ih3, ih4⟩ := ih (processToken st t) hnd1 hinv1
    rw [hns1] at ih2 ih3 ih4
    rw [hprev1] at ih4
    have hnorm : normTexts (t :: rest) st.newSentence =
        (st.newSentence, if st.newSentence then lowerFirst (check_if_ends_sentence t).2
          else (check_if_ends_sentence t).2) ::
            normTexts rest (check_if_ends_sentence t).1 := rfl
    refine ⟨ih1, ?_, ?_, ?_⟩
    · intro x hx
      rcases ih2 x hx with hx1 | hx2
      · rcases hstrings with h | ⟨h, _⟩
        · rw [h] at hx1
          exact Or.inl hx1
        · rw [h] at hx1
          rcases List.mem_append.mp hx1 with h2 | h2
          · exact Or.inl h2
          · right
            rw [hnorm]
            simp only [List.mem_singleton] at h2
            simp [h2]
      · right
        rw [hnorm]
        simp only [List.map_cons, List.mem_cons]
        exact Or.inr hx2
    · rw [ih3, ssw_length_processToken, hnorm]
      rw [List.countP_cons]
      by_cases hns : st.newSentence <;> simp [hns] <;> omega
    · intro x
      have hstep := ih4 x
      rw [hnorm, adjPairsFrom_cons, List.countP_append]
      by_cases hns : st.newSentence
      · have heq := nwOf_processToken_ns st t hns x
        rw [heq] at hstep
        simp only [hns, if_true] at hstep ⊢
        simpa using hstep
      · have hnsf : st.newSentence = false := by simpa using hns
        rw [hnsf] at hstep
        simp only [Bool.false_eq_true, if_false] at hstep
        cases hpw : st.thisWord with
        | none =>
          have heq := nwOf_processToken_none st t hnsf hpw x
          rw [heq] at hstep
          simp only [hnsf, Bool.false_eq_true, if_false, hpw, Option.map_none']
          simpa using hstep
        | some p =>
          have heq := nwOf_processToken_link st t hnsf p hpw (hinv p hpw) x
          simp only [hnsf, Bool.false_eq_true, if_false, hpw, Option.map_some']
          have hcount : (List.countP (fun pr => pr.1 == x)
              [((st.words.getD p default).string, (check_if_ends_sentence t).2)]) =
              if (st.words.getD p default).string = x then 1 else 0 := by
            rw [List.countP_cons]
            simp only [List.countP_nil]
            by_cases hx : (st.words.getD p default).string = x
            · simp [hx]
            · simp [hx]
          rw [hcount]
          omega

theorem normTexts_append : ∀ (a b : List (List Char)) (ns : Bool),
    normTexts (a ++ b) ns = normTexts a ns ++ normTexts b (scanFlag a ns) := by
  intro a
  induction a with
  | nil => intro b ns; rfl
  | cons t rest ih =>
    intro b ns
    rw [List.cons_append]
    show (ns, _) :: normTexts (rest ++ b) _ = _
    rw [ih]
    rfl

theorem pvAfter_cons (pv : Option (List Char)) (e : Bool × List Char)
    (l : List (Bool × List Char)) :
    pvAfter pv (e :: l) = pvAfter (some e.2) l := by
  cases l with
  | nil => rfl
  | cons f r =>
    unfold pvAfter
    rw [List.getLast?_cons_cons]
    cases hgl : (f :: r).getLast? with
    | none => exact absurd (List.getLast?_eq_none_iff.mp hgl) (by simp)
    | some u => rfl

theorem adjPairsFrom_append : ∀ (l1 l2 : List (Bool × List Char)) (pv : Option (List Char)),
    adjPairsFrom pv (l1 ++ l2) = adjPairsFrom pv l1 ++ adjPairsFrom (pvAfter pv l1) l2 := by
  intro l1
  induction l1 with
  | nil => intro l2 pv; rfl
  | cons e r ih =>
    intro l2 pv
    rw [List.cons_append, adjPairsFrom_cons, adjPairsFrom_cons, ih, pvAfter_cons]
    rw [List.append_assoc]

theorem nwOf_of_mem {ws : List Word} (hnd : (wordStrings ws).Nodup) {w : Word} (hw : w ∈ ws) :
    w.next_words.length = nwOf ws w.string := by
  obtain ⟨k, hk, hgk⟩ := List.mem_iff_getElem.mp hw
  cases hsw : search_words ws w.string with
  | none => exact absurd rfl (search_words_none _ _ hsw w hw)
  | some j =>
    obtain ⟨hj, hstr⟩ := search_words_some _ _ _ hsw
    have hjlen : j < (wordStrings ws).length := by simpa [wordStrings] using hj
    have hklen : k < (wordStrings ws).length := by simpa [wordStrings] using hk
    have he : (wordStrings ws).get ⟨j, hjlen⟩ = (wordStrings ws).get ⟨k, hklen⟩ := by
      have h1 : (wordStrings ws).get ⟨j, hjlen⟩ = (ws.getD j default).string := by
        simp only [wordStrings, List.get_eq_getElem, List.getElem_map]
        rw [List.getD_eq_getElem ws default hj]
      have h2 : (wordStrings ws).get ⟨k, hklen⟩ = w.string := by
        simp only [wordStrings, List.get_eq_getElem, List.getElem_map]
        rw [hgk]
      rw [h1, h2, hstr]
    rw [List.get_eq_getElem, List.get_eq_getElem] at he
    have hjk : j = k := (List.Nodup.getElem_inj_iff hnd).mp he
    subst hjk
    unfold nwOf
    rw [hsw]
    show w.next_words.length = (ws.getD j default).next_words.length
    rw [List.getD_eq_getElem ws default hj, hgk]

theorem buildState_bounds (ts : List (List Char)) :
    (wordStrings (buildState ts).words).Nodup ∧
    (∀ x ∈ wordStrings (buildState ts).words, x ∈ corpusTexts ts) ∧
    (buildState ts).ssw.length = startCount ts ∧
    (∀ x, nwOf (buildState ts).words x ≤ transFrom ts x) := by
  obtain ⟨h1, h2, h3, h4⟩ := build_bounds ts initBuildState
    (by simp [wordStrings, initBuildState]) (by intro i h; simp [initBuildState] at h)
  refine ⟨h1, ?_, ?_, ?_⟩
  · intro x hx
    rcases h2 x hx with h | h
    · simp [wordStrings, initBuildState] at h
    · exact h
  · show (buildState ts).ssw.length = startCount ts
    rw [show initBuildState.newSentence = true from rfl] at h3
    unfold buildState
    rw [h3]
    simp [initBuildState, startCount]
  · intro x
    have h5 := h4 x
    rw [show initBuildState.newSentence = true from rfl] at h5
    rw [show initBuildState.thisWord = none from rfl] at h5
    rw [Option.map_none'] at h5
    rw [show nwOf initBuildState.words x = 0 from rfl] at h5
    show nwOf (buildState ts).words x ≤ transFrom ts x
    unfold buildState transFrom corpusTransitions
    omega

theorem words_length_le_card (ts : List (List Char)) :
    (buildState ts).words.length ≤ (corpusTexts ts).toFinset.card := by
  obtain ⟨h1, h2, _, _⟩ := buildState_bounds ts
  calc (buildState ts).words.length = (wordStrings (buildState ts).words).length := by
        simp [wordStrings]
    _ = (wordStrings (buildState ts).words).toFinset.card :=
        (List.toFinset_card_of_nodup h1).symm
    _ ≤ (corpusTexts ts).toFinset.card := by
        apply Finset.card_le_card
        intro x hx
        rw [List.mem_toFinset] at hx ⊢
        exact h2 x hx

theorem corpusTexts_prefix (ts0 rest : List (List Char)) :
    ∀ x ∈ corpusTexts ts0, x ∈ corpusTexts (ts0 ++ rest) := by
  intro x hx
  unfold corpusTexts at hx ⊢
  rw [normTexts_append]
  simp only [List.map_append, List.mem_append]
  exact Or.inl hx

theorem startCount_prefix (ts0 rest : List (List Char)) :
    startCount ts0 ≤ startCount (ts0 ++ rest) := by
  unfold startCount
  rw [normTexts_append, List.countP_append]
  omega

theorem transFrom_prefix (ts0 rest : List (List Char)) (x : List Char) :
    transFrom ts0 x ≤ transFrom (ts0 ++ rest) x := by
  unfold transFrom corpusTransitions
  rw [normTexts_append, adjPairsFrom_append, List.countP_append]
  omega

/-! ### Claim theorems -/

/-- C1 (counterexample): the claim that `generate`'s success/failure outcome is
independent of the random choices, and that it succeeds whenever a valid chain
exists, is false.  On the model built from the corpus `"a b a c d e."` a valid
chain of length 4 exists (`a c d e`, indices `[0, 2, 3, 4]`) and one random
stream finds it, yet another random stream (first trying the branch through
`b`) returns failure, because the recursive search re-zeroes the `tested`
array stored in the shared `Word` struct of `a`, wiping the outer frame's
markers. -/
theorem C1_counterexample :
    (find_words demoModel 4 [0, 1]).map (fun r => (r.1, r.2.2.2)) =
      some (true, [0, 2, 3, 4]) ∧
    (find_words demoModel 4 []).map (fun r => r.1) = some false ∧
    isValidChain demoModel [0, 2, 3, 4] = true ∧
    ([0, 2, 3, 4] : List Nat).length = 4 := by
  refine ⟨by decide, by decide, by decide, by decide⟩

/-- C1 (amended): whenever `generate(model, N)` succeeds, a valid chain of
length `N` exists in the model (the converse, and independence of the random
stream, fail on the code: see the counterexample). -/
theorem C1_success_implies_chain (m : Model) (len : Nat) (s : List Nat)
    (h : (find_words m len s).map (fun r => r.1) = some true) :
    ∃ c, c.length = len ∧ isValidChain m c = true := by
  obtain ⟨res, hres, hb⟩ := Option.map_eq_some'.mp h
  obtain ⟨hl, hv⟩ := (find_words_spec hres).2 hb
  exact ⟨res.2.2.2, hl, hv⟩

/-- Witness for the amended C1 at a concrete success. -/
theorem C1_success_implies_chain_witness :
    (find_words demoModel 4 [0, 1]).map (fun r => r.1) = some true ∧
    ∃ c, c.length = 4 ∧ isValidChain demoModel c = true :=
  ⟨by decide, C1_success_implies_chain demoModel 4 [0, 1] (by decide)⟩

/-- C2 (counterexample): `generate` does not leave the model's `Word` records
unchanged: the inner "tried" markers are the `tested` arrays stored in the
shared `Word` structs, which the search mutates, so after a call the word
array differs from the one before. -/
theorem C2_counterexample :
    (find_words demoModel 4 []).map (fun r => r.2.1) ≠ some demoModel.words := by
  decide

/-- C2 (amended): every spec-level WordEntry field (text, occurrence count,
sentence-ending flag, successor list) of every entry is unchanged by
`find_words`; only the `tested` scratch arrays (and the request-local starter
marker array) are mutated.  (`sentence_starting_words` is never written by the
search: the embedding threads only the word array as state because the C code
contains no store to the starter list.) -/
theorem C2_core_preserved (m : Model) (len : Nat) (s : List Nat)
    (h : (find_words m len s).isSome = true) :
    (find_words m len s).map (fun r => r.2.1.map wordCore) =
      some (m.words.map wordCore) := by
  obtain ⟨res, hres⟩ := Option.isSome_iff_exists.mp h
  rw [hres]
  have hs := (find_words_spec hres).1
  rw [Option.map_some']
  exact congrArg some hs.symm

/-- Witness for the amended C2 at a concrete call. -/
theorem C2_core_preserved_witness :
    (find_words demoModel 4 []).isSome = true ∧
    (find_words demoModel 4 []).map (fun r => r.2.1.map wordCore) =
      some (demoModel.words.map wordCore) :=
  ⟨by decide, C2_core_preserved demoModel 4 [] (by decide)⟩

/-- C3: for every model, requested length at least 1 and random stream, the
search terminates with a result (the bounded marking loops never exhaust
their fuel), even on cyclic adjacency graphs. -/
theorem C3_terminates (m : Model) (len : Nat) (s : List Nat) (h : 1 ≤ len) :
    (find_words m len s).isSome = true :=
  find_words_total m len s h

/-- Witness for C3 on the self-loop model built from `"a a a b."` at
length 5. -/
theorem C3_terminates_witness :
    1 ≤ 5 ∧ (find_words cyclicModel 5 []).isSome = true :=
  ⟨by decide, C3_terminates cyclicModel 5 [] (by decide)⟩

/-- C4: whenever `generate` succeeds, the returned sequence has length exactly
`N`, starts with a sentence starter, each consecutive pair is linked by an
observed successor, and the last word is a sentence ender. -/
theorem C4_success_valid (m : Model) (len : Nat) (s : List Nat) (acc : List Nat)
    (h : (find_words m len s).map (fun r => (r.1, r.2.2.2)) = some (true, acc)) :
    acc.length = len ∧ isValidChain m acc = true := by
  obtain ⟨res, hres, hpair⟩ := Option.map_eq_some'.mp h
  have h1 : res.1 = true := congrArg Prod.fst hpair
  have h2 : res.2.2.2 = acc := congrArg Prod.snd hpair
  rw [← h2]
  exact (find_words_spec hres).2 h1

/-- Witness for C4 at a concrete successful search. -/
theorem C4_success_valid_witness :
    (find_words demoModel 4 [0, 1]).map (fun r => (r.1, r.2.2.2)) =
      some (true, [0, 2, 3, 4]) ∧
    (([0, 2, 3, 4] : List Nat).length = 4 ∧ isValidChain demoModel [0, 2, 3, 4] = true) :=
  ⟨by decide, C4_success_valid demoModel 4 [0, 1] [0, 2, 3, 4] (by decide)⟩

/-- C5: model construction fails (with the empty-corpus error, embedded as
`none`) exactly on the empty token stream; any nonempty stream yields a fully
constructed model. -/
theorem C5_empty_corpus (ts : List (List Char)) :
    create_model ts = none ↔ ts = [] :=
  create_model_eq_none_iff ts

/-- C6: a model built from a nonempty token stream has a nonempty
sentence-starter list, and the total occurrence count over the vocabulary
equals the number of tokens consumed. -/
theorem C6_model_counts (ts : List (List Char)) (m : Model)
    (h : create_model ts = some m) :
    m.sentence_starting_words ≠ [] ∧ occSum m.words = ts.length :=
  create_model_some_props h

/-- Witness for C6 on the demo corpus of six tokens. -/
theorem C6_model_counts_witness :
    create_model demoTokens = some demoModel ∧
    (demoModel.sentence_starting_words ≠ [] ∧ occSum demoModel.words = demoTokens.length) :=
  ⟨by decide, C6_model_counts demoTokens demoModel (by decide)⟩

/-- C7 (counterexample): `format` does not always produce a string whose first
character is uppercase: on a word entry whose text begins with a scanner
punctuation character (e.g. the entry built from the corpus token `,a.`),
`toupper` leaves the first character unchanged. -/
theorem C7_counterexample :
    combine_words [puncWord] = [',', 'a', '.'] ∧
    firstCharUpper (combine_words [puncWord]) = false := by
  refine ⟨by decide, by decide⟩

/-- C7 (amended): for every nonempty sequence of word entries whose texts are
nonempty and whitespace-free, whose first text starts with an ASCII letter
and whose last text does not end in a period, `format` yields a string with
an uppercase first character, ending in exactly one period, containing
exactly `N` whitespace-separated tokens. -/
theorem C7_format_ok (sentence : List Word) (hne : sentence ≠ [])
    (hall : ∀ w ∈ sentence, w.string ≠ [] ∧ ∀ c ∈ w.string, isWhitespaceChar c = false)
    (hfirst : isAsciiLetter ((sentence.headD default).string.headD ' ') = true)
    (hlast : (sentence.getLastD default).string.getLastD ' ' ≠ '.') :
    firstCharUpper (combine_words sentence) = true ∧
    endsSinglePeriod (combine_words sentence) = true ∧
    countTokens (combine_words sentence) = sentence.length := by
  have hmapne : sentence.map (fun w => w.string) ≠ [] := by
    intro h
    exact hne (List.map_eq_nil_iff.mp h)
  have hhead : (sentence.map (fun w => w.string)).headD [] =
      (sentence.headD default).string := by
    cases sentence with
    | nil => exact absurd rfl hne
    | cons a b => rfl
  have hlastm : (sentence.map (fun w => w.string)).getLastD [] =
      (sentence.getLastD default).string := by
    rw [List.getLastD_eq_getLast?, List.getLastD_eq_getLast?, List.getLast?_map]
    cases hgl : sentence.getLast? with
    | none => exact absurd (List.getLast?_eq_none_iff.mp hgl) hne
    | some w => rfl
  have h := format_props (sentence.map (fun w => w.string)) hmapne
    (by
      intro t ht
      obtain ⟨w, hw, rfl⟩ := List.mem_map.mp ht
      exact hall w hw)
    (by rw [hhead]; exact hfirst)
    (by rw [hlastm]; exact hlast)
  refine ⟨h.1, h.2.1, ?_⟩
  show countTokens (capitalize_first (join_texts (sentence.map (fun w => w.string)))) =
    sentence.length
  rw [h.2.2, List.length_map]

/-- Witness for the amended C7 on a one-word sentence. -/
theorem C7_format_ok_witness :
    ([hiWord] ≠ []) ∧
    (∀ w ∈ [hiWord], w.string ≠ [] ∧ ∀ c ∈ w.string, isWhitespaceChar c = false) ∧
    (isAsciiLetter (([hiWord].headD default).string.headD ' ') = true) ∧
    (([hiWord].getLastD default).string.getLastD ' ' ≠ '.') ∧
    (firstCharUpper (combine_words [hiWord]) = true ∧
     endsSinglePeriod (combine_words [hiWord]) = true ∧
     countTokens (combine_words [hiWord]) = [hiWord].length) :=
  ⟨by decide, by decide, by decide, by decide,
    C7_format_ok [hiWord] (by decide) (by decide) (by decide) (by decide)⟩

/-- C8: under the capacity preconditions (at most 10000 distinct normalized
words, at most 1000 sentence-start occurrences, at most 100 transitions out of
any single word in the whole corpus), the builder's indices stay within the
fixed array bounds throughout construction, i.e. after any prefix of the
token stream. -/
theorem C8_capacity (ts0 rest : List (List Char))
    (hw : (corpusTexts (ts0 ++ rest)).toFinset.card ≤ 10000)
    (hs : startCount (ts0 ++ rest) ≤ 1000)
    (ht : ∀ x, transFrom (ts0 ++ rest) x ≤ 100) :
    (buildState ts0).words.length ≤ 10000 ∧
    (buildState ts0).ssw.length ≤ 1000 ∧
    ∀ w ∈ (buildState ts0).words, w.next_words.length ≤ 100 := by
  obtain ⟨hnd, hsub, hssw, hnw⟩ := buildState_bounds ts0
  refine ⟨?_, ?_, ?_⟩
  · calc (buildState ts0).words.length ≤ (corpusTexts ts0).toFinset.card :=
        words_length_le_card ts0
      _ ≤ (corpusTexts (ts0 ++ rest)).toFinset.card := by
          apply Finset.card_le_card
          intro x hx
          rw [List.mem_toFinset] at hx ⊢
          exact corpusTexts_prefix ts0 rest x hx
      _ ≤ 10000 := hw
  · calc (buildState ts0).ssw.length = startCount ts0 := hssw
      _ ≤ startCount (ts0 ++ rest) := startCount_prefix ts0 rest
      _ ≤ 1000 := hs
  · intro w hwmem
    calc w.next_words.length = nwOf (buildState ts0).words w.string :=
        nwOf_of_mem hnd hwmem
      _ ≤ transFrom ts0 w.string := hnw w.string
      _ ≤ transFrom (ts0 ++ rest) w.string := transFrom_prefix ts0 rest w.string
      _ ≤ 100 := ht w.string

/-- Witness for C8 on the demo corpus (taken in full as its own prefix). -/
theorem C8_capacity_witness :
    ((corpusTexts (demoTokens ++ [])).toFinset.card ≤ 10000) ∧
    (startCount (demoTokens ++ []) ≤ 1000) ∧
    (∀ x, transFrom (demoTokens ++ []) x ≤ 100) ∧
    ((buildState demoTokens).words.length ≤ 10000 ∧
     (buildState demoTokens).ssw.length ≤ 1000 ∧
     ∀ w ∈ (buildState demoTokens).words, w.next_words.length ≤ 100) := by
  have ht : ∀ x, transFrom (demoTokens ++ []) x ≤ 100 := fun x =>
    le_trans (List.countP_le_length _) (by decide)
  exact ⟨by decide, by decide, ht, C8_capacity demoTokens [] (by decide) (by decide) ht⟩

/-- C9: the search never samples from an empty range: the loop guard
`not_all_checked` holds only on a nonempty marker array (so `rand() % range`
has `range ≥ 1`), `random_int` respects its bounds whenever
`lower ≤ upper` (the source assertion), `generate` on a model with no
sentence starters fails immediately with the random stream untouched, and
extending a word with no successors fails immediately with the random stream
untouched. -/
theorem C9_no_empty_range :
    ∀ (arr : List Bool) (lower upper r : Nat) (m : Model) (len : Nat) (s : List Nat)
      (rem cur : Nat) (ws : List Word) (acc : List Nat),
      (not_all_checked arr = true → 1 ≤ arr.length) ∧
      (lower ≤ upper →
        lower ≤ random_int lower upper r ∧ random_int lower upper r ≤ upper) ∧
      (m.sentence_starting_words = [] → find_words m len s = some (false, m.words, s, [])) ∧
      (2 ≤ rem → (ws.getD cur default).next_words = [] →
        find_words_recursive rem ws s cur acc =
          some (false, updateWord ws cur (fun w0 =>
            { w0 with tested := List.replicate w0.next_words.length false }), s, acc)) := by
  intro arr lower upper r m len s rem cur ws acc
  refine ⟨?_, ?_, ?_, ?_⟩
  · intro h
    obtain ⟨b, hb, _⟩ := List.any_eq_true.mp h
    exact List.length_pos_of_mem hb
  · intro h
    unfold random_int
    constructor
    · omega
    · have hm : r % (upper - lower + 1) < upper - lower + 1 :=
        Nat.mod_lt _ (by omega)
      omega
  · intro h
    unfold find_words
    rw [h]
    rfl
  · intro h2 h
    obtain ⟨r2, rfl⟩ : ∃ r2, rem = r2 + 2 := ⟨rem - 2, by omega⟩
    have htest : ((updateWord ws cur (fun w0 =>
        { w0 with tested := List.replicate w0.next_words.length false })).getD cur
          default).tested = [] := by
      by_cases hc : cur < ws.length
      · rw [getD_updateWord_self _ hc]
        show List.replicate (ws.getD cur default).next_words.length false = []
        rw [h]
        rfl
      · rw [updateWord_out_of_range _ (by omega)]
        rw [List.getD_eq_default _ _ (by omega)]
        rfl
    simp only [find_words_recursive]
    rw [h]
    simp only [tryNext, htest]
    rfl

/-- Witness for C9 at concrete values: a one-entry marker array, the bounds
0 and 2, a model with no sentence starters, and a word with no successors. -/
theorem C9_no_empty_range_witness :
    (not_all_checked [false] = true → 1 ≤ ([false] : List Bool).length) ∧
    ((0 : Nat) ≤ 2 → 0 ≤ random_int 0 2 7 ∧ random_int 0 2 7 ≤ 2) ∧
    ((default : Model).sentence_starting_words = [] →
      find_words default 3 [5] = some (false, (default : Model).words, [5], [])) ∧
    (2 ≤ 2 → (([] : List Word).getD 0 default).next_words = [] →
      find_words_recursive 2 [] [5] 0 [0] =
        some (false, updateWord [] 0 (fun w0 =>
          { w0 with tested := List.replicate w0.next_words.length false }), [5], [0])) :=
  C9_no_empty_range [false] 0 2 7 default 3 [5] 2 0 [] [0]

/-- C10: a token consisting of exactly one sentence-terminating character is
stripped to the empty string and registers a vocabulary entry with empty text
marked as sentence-ending (hence eligible as the final word of a generated
sentence, which only requires `is_sentence_ender`). -/
theorem C10_punct_token (ts1 ts2 : List (List Char)) (c : Char) (m : Model)
    (hc : isTerminator c = true) (h : create_model (ts1 ++ [c] :: ts2) = some m) :
    ∃ w ∈ m.words, w.string = [] ∧ w.is_sentence_ender = true := by
  have hm : m.words = (buildState (ts1 ++ [c] :: ts2)).words := by
    simp only [create_model] at h
    split at h
    · simp at h
    · have := Option.some.inj h
      rw [← this]
  apply hasEmptyEnder_mem
  rw [hm]
  unfold buildState
  rw [List.foldl_append, List.foldl_cons]
  exact hasEmptyEnder_foldl ts2 _ (hasEmptyEnder_establish _ c hc)

/-- Witness for C10 on the corpus `"a ."`. -/
theorem C10_punct_token_witness :
    isTerminator '.' = true ∧
    create_model ([['a']] ++ ['.'] :: []) = some dotModel ∧
    ∃ w ∈ dotModel.words, w.string = [] ∧ w.is_sentence_ender = true :=
  ⟨by decide, by decide, C10_punct_token [['a']] [] '.' dotModel (by decide) (by decide)⟩
